import Mathlib

/-!
Formal model of the my-list feature (services/myListService.ts,
controllers/myListController.ts, models/MyList.ts, db/redis.ts).

The TypeScript service is embedded shallowly:
- Mongo collections become Lean lists of records; the unique compound
  index on (userId, contentId) of the MyList collection becomes an
  explicit duplicate check inside the modelled create operation.
- The in-process ListCache (a JS Map) becomes an association list that
  keeps insertion order, which is exactly the iteration order a JS Map
  guarantees; listCacheSet reproduces the falsy-key guard of the source
  (if (firstKey)) literally.
- Redis becomes an association list of key/entry pairs together with a
  connection status: uninitialized (getRedisClient throws), or a
  connection that is healthy or failing (every command of a failing
  connection throws and is handled by the catch blocks of the source).
- Exceptions become Except values; every operation returns the pair of
  its Except result and the post state, because a thrown exception in
  the source still leaves behind the mutations done before the throw.
- Date.now() becomes an explicit now : Nat parameter (milliseconds).
- JSON.stringify/JSON.parse round-tripping of cached pages is treated
  as the identity, so Redis entries store the page value directly.
- JS template interpolation of numbers into cache keys is modelled by
  natToString, a base-10 rendering of Nat.
-/

/-- Discriminator of the content union, field contentType of the source. -/
inductive ContentType where
  | movie
  | tvshow
deriving DecidableEq

/-- A document of the movies collection (models/Movie.ts). -/
structure Movie where
  id : String
  title : String
  description : String
  genres : List String
  releaseDate : Nat
  director : String
  actors : List String
deriving DecidableEq

/-- An episode subdocument of a TV show (models/TVShow.ts). -/
structure Episode where
  episodeNumber : Nat
  seasonNumber : Nat
  releaseDate : Nat
  director : String
  actors : List String
deriving DecidableEq

/-- A document of the tvshows collection (models/TVShow.ts). -/
structure TVShow where
  id : String
  title : String
  description : String
  genres : List String
  episodes : List Episode
deriving DecidableEq

/-- A document of the MyList collection (models/MyList.ts). -/
structure MyListRow where
  userId : String
  contentId : String
  contentType : ContentType
  addedAt : Nat
deriving DecidableEq

/-- A row of the aggregation output: the membership joined with the
content record selected by its contentType, when that record exists. -/
structure EnrichedItem where
  userId : String
  contentId : String
  contentType : ContentType
  addedAt : Nat
  content : Option (Sum Movie TVShow)
deriving DecidableEq

/-- The PaginatedResponse shape built by getMyListItems. -/
structure PaginatedResponse where
  items : List EnrichedItem
  total : Nat
  page : Nat
  pageSize : Nat
  totalPages : Nat
deriving DecidableEq

/-- The durable store: the MyList collection plus the two read-only
content collections. -/
structure DB where
  myList : List MyListRow
  movies : List Movie
  tvshows : List TVShow
deriving DecidableEq

/-! ## Decimal rendering of numbers (JS template interpolation) -/

/-- Base-10 character rendering of a Nat, most significant digit first,
modelling how a JS number is interpolated into the cache key string. -/
def natToChars (n : Nat) : List Char :=
  if n = 0 then ['0'] else ((Nat.digits 10 n).map Nat.digitChar).reverse

/-- String form of natToChars. -/
def natToString (n : Nat) : String := String.mk (natToChars n)

theorem digitChar_ne_colon : ∀ d : Nat, d < 10 → Nat.digitChar d ≠ ':' := by decide

theorem digitChar_inj_lt :
    ∀ a : Nat, a < 10 → ∀ b : Nat, b < 10 → Nat.digitChar a = Nat.digitChar b → a = b := by
  decide

theorem mem_natToChars_ne_colon (n : Nat) : ∀ c ∈ natToChars n, c ≠ ':' := by
  intro c hc
  unfold natToChars at hc
  split at hc
  · simp only [List.mem_singleton] at hc
    subst hc; decide
  · simp only [List.mem_reverse, List.mem_map] at hc
    obtain ⟨d, hd, hdc⟩ := hc
    have hlt : d < 10 := Nat.digits_lt_base (by norm_num) hd
    subst hdc
    exact digitChar_ne_colon d hlt

theorem map_digitChar_inj :
    ∀ (l1 l2 : List Nat), (∀ d ∈ l1, d < 10) → (∀ d ∈ l2, d < 10) →
      l1.map Nat.digitChar = l2.map Nat.digitChar → l1 = l2 := by
  intro l1
  induction l1 with
  | nil =>
    intro l2 _ _ h
    cases l2 with
    | nil => rfl
    | cons b bs => simp at h
  | cons a as ih =>
    intro l2 h1 h2 h
    cases l2 with
    | nil => simp at h
    | cons b bs =>
      simp only [List.map_cons, List.cons.injEq] at h
      have ha : a < 10 := h1 a (List.mem_cons_self _ _)
      have hb : b < 10 := h2 b (List.mem_cons_self _ _)
      have hab : a = b := digitChar_inj_lt a ha b hb h.1
      have htl : as = bs :=
        ih bs (fun d hd => h1 d (List.mem_cons_of_mem _ hd))
          (fun d hd => h2 d (List.mem_cons_of_mem _ hd)) h.2
      rw [hab, htl]

theorem natToChars_inj {a b : Nat} (h : natToChars a = natToChars b) : a = b := by
  unfold natToChars at h
  by_cases ha : a = 0 <;> by_cases hb : b = 0
  · rw [ha, hb]
  · exfalso
    rw [if_pos ha, if_neg hb] at h
    have hmap : (Nat.digits 10 b).map Nat.digitChar = ['0'] := by
      have := congrArg List.reverse h
      simpa using this.symm
    have hdig : ∃ d, Nat.digits 10 b = [d] ∧ Nat.digitChar d = '0' := by
      cases hd : Nat.digits 10 b with
      | nil => rw [hd] at hmap; simp at hmap
      | cons x xs =>
        rw [hd] at hmap
        cases xs with
        | nil =>
          simp only [List.map_cons, List.map_nil, List.cons.injEq] at hmap
          exact ⟨x, rfl, hmap.1⟩
        | cons y ys => simp at hmap
    obtain ⟨d, hd, hdc⟩ := hdig
    have hlt : d < 10 := Nat.digits_lt_base (by norm_num) (by rw [hd]; exact List.mem_singleton_self d)
    have hd0 : d = 0 := by
      have : Nat.digitChar d = Nat.digitChar 0 := by rw [hdc]; rfl
      exact digitChar_inj_lt d hlt 0 (by norm_num) this
    have : b = Nat.ofDigits 10 (Nat.digits 10 b) := (Nat.ofDigits_digits 10 b).symm
    rw [hd, hd0] at this
    simp [Nat.ofDigits] at this
    exact hb this
  · exfalso
    rw [if_neg ha, if_pos hb] at h
    have hmap : (Nat.digits 10 a).map Nat.digitChar = ['0'] := by
      have := congrArg List.reverse h
      simpa using this
    have hdig : ∃ d, Nat.digits 10 a = [d] ∧ Nat.digitChar d = '0' := by
      cases hd : Nat.digits 10 a with
      | nil => rw [hd] at hmap; simp at hmap
      | cons x xs =>
        rw [hd] at hmap
        cases xs with
        | nil =>
          simp only [List.map_cons, List.map_nil, List.cons.injEq] at hmap
          exact ⟨x, rfl, hmap.1⟩
        | cons y ys => simp at hmap
    obtain ⟨d, hd, hdc⟩ := hdig
    have hlt : d < 10 := Nat.digits_lt_base (by norm_num) (by rw [hd]; exact List.mem_singleton_self d)
    have hd0 : d = 0 := by
      have : Nat.digitChar d = Nat.digitChar 0 := by rw [hdc]; rfl
      exact digitChar_inj_lt d hlt 0 (by norm_num) this
    have : a = Nat.ofDigits 10 (Nat.digits 10 a) := (Nat.ofDigits_digits 10 a).symm
    rw [hd, hd0] at this
    simp [Nat.ofDigits] at this
    exact ha this
  · rw [if_neg ha, if_neg hb] at h
    have hmap := List.reverse_injective h
    have hdig : Nat.digits 10 a = Nat.digits 10 b :=
      map_digitChar_inj _ _ (fun d hd => Nat.digits_lt_base (by norm_num) hd)
        (fun d hd => Nat.digits_lt_base (by norm_num) hd) hmap
    calc a = Nat.ofDigits 10 (Nat.digits 10 a) := (Nat.ofDigits_digits 10 a).symm
    _ = Nat.ofDigits 10 (Nat.digits 10 b) := by rw [hdig]
    _ = b := Nat.ofDigits_digits 10 b

theorem natToString_inj {a b : Nat} (h : natToString a = natToString b) : a = b := by
  have : natToChars a = natToChars b := congrArg String.data h
  exact natToChars_inj this

/-! ## Splitting a character list at its last colon -/

theorem split_last_colon :
    ∀ (a1 a2 d1 d2 : List Char), (∀ c ∈ d1, c ≠ ':') → (∀ c ∈ d2, c ≠ ':') →
      a1 ++ ':' :: d1 = a2 ++ ':' :: d2 → a1 = a2 ∧ d1 = d2 := by
  intro a1
  induction a1 with
  | nil =>
    intro a2 d1 d2 h1 _ h
    cases a2 with
    | nil =>
      simp only [List.nil_append, List.cons.injEq] at h
      exact ⟨rfl, h.2⟩
    | cons c as =>
      exfalso
      simp only [List.nil_append, List.cons_append, List.cons.injEq] at h
      have : (':' : Char) ∈ d1 := by
        rw [h.2]
        exact List.mem_append_right as (List.mem_cons_self _ _)
      exact h1 ':' this rfl
  | cons c as ih =>
    intro a2 d1 d2 h1 h2 h
    cases a2 with
    | nil =>
      exfalso
      simp only [List.cons_append, List.nil_append, List.cons.injEq] at h
      have : (':' : Char) ∈ d2 := by
        rw [← h.2]
        exact List.mem_append_right as (List.mem_cons_self _ _)
      exact h2 ':' this rfl
    | cons b bs =>
      simp only [List.cons_append, List.cons.injEq] at h
      obtain ⟨htl, hd⟩ := ih bs d1 d2 h1 h2 h.2
      exact ⟨by rw [h.1, htl], hd⟩

/-! ## Redis glob matching

The invalidation path enumerates Redis keys with SCAN and the pattern
mylist:*:userId:*. The pattern built by the source contains only literal
characters and the * wildcard, so the matcher below models exactly that
fragment of Redis glob syntax: * matches any (possibly empty) sequence
of characters, every other character matches itself. -/

def globMatch (p s : List Char) : Bool :=
  match p, s with
  | [], [] => true
  | [], _ :: _ => false
  | c :: ps, s =>
    if c = '*' then
      globMatch ps s ||
        (match s with
         | [] => false
         | _ :: cs => globMatch (c :: ps) cs)
    else
      match s with
      | [] => false
      | d :: cs => c == d && globMatch ps cs
termination_by (s.length, p.length)

theorem globMatch_nil_nil : globMatch [] [] = true := by simp [globMatch]

theorem glob_star_all : ∀ s : List Char, globMatch ['*'] s = true := by
  intro s
  induction s with
  | nil => simp [globMatch]
  | cons c cs ih =>
    unfold globMatch
    simp only [if_pos rfl]
    rw [ih]
    simp

theorem glob_star_intro {ps s : List Char} (h : globMatch ps s = true) :
    globMatch ('*' :: ps) s = true := by
  unfold globMatch
  simp only [if_pos rfl]
  rw [h]
  simp

theorem glob_star_skip :
    ∀ (x : List Char) {ps s : List Char}, globMatch ps s = true →
      globMatch ('*' :: ps) (x ++ s) = true := by
  intro x
  induction x with
  | nil =>
    intro ps s h
    simpa using glob_star_intro h
  | cons c cs ih =>
    intro ps s h
    unfold globMatch
    simp only [if_pos rfl, List.cons_append]
    rw [ih h]
    simp

theorem glob_lit_cons {ps s : List Char} (c : Char) (h : globMatch ps s = true) :
    globMatch (c :: ps) (c :: s) = true := by
  by_cases hc : c = '*'
  · subst hc
    have h1 : globMatch ('*' :: ps) s = true := glob_star_intro h
    unfold globMatch
    simp only [if_pos rfl]
    rw [h1]
    simp
  · unfold globMatch
    rw [if_neg hc]
    simp [h]

theorem glob_lit_append :
    ∀ (t : List Char) {ps s : List Char}, globMatch ps s = true →
      globMatch (t ++ ps) (t ++ s) = true := by
  intro t
  induction t with
  | nil => intro ps s h; simpa using h
  | cons c cs ih =>
    intro ps s h
    simpa using glob_lit_cons c (ih h)

/-- The SCAN pattern used by invalidateUserListCache, as chars:
mylist:*:u:* where u is the user id. -/
def redisPatternChars (u : List Char) : List Char :=
  ("mylist:".data ++ ['*'] ++ (':' :: u ++ [':']) ++ ['*'])

/-- Any key of the shape mylist:<x>:<u>:<y> is matched by the
invalidation pattern of user u. -/
theorem glob_matches_user_key (u x y : List Char) :
    globMatch (redisPatternChars u)
      ("mylist:".data ++ x ++ (':' :: u ++ (':' :: y))) = true := by
  unfold redisPatternChars
  rw [List.append_assoc, List.append_assoc]
  apply glob_lit_append "mylist:".data
  have h3 : globMatch ['*'] y = true := glob_star_all y
  have h2 : globMatch ((':' :: u ++ [':']) ++ ['*']) (':' :: u ++ (':' :: y)) = true := by
    have : globMatch ([':'] ++ ['*']) ([':'] ++ y) = true := by
      apply glob_lit_append [':'] h3
    have hmain := glob_lit_append (':' :: u) this
    simpa using hmain
  have := glob_star_skip x h2
  simpa using this

/-! ## Association lists with JS Map semantics

A JS Map preserves insertion order; set on an existing key updates the
value in place keeping its position, set on a fresh key appends at the
end, delete removes the entry. -/

/-- Map.set semantics. -/
def mapSet {α : Type} (key : String) (v : α) : List (String × α) → List (String × α)
  | [] => [(key, v)]
  | (k, w) :: rest => if k == key then (k, v) :: rest else (k, w) :: mapSet key v rest

/-- Map.delete semantics (also used for deleteOne on Mongo rows via the
generic first-match remover below). -/
def deleteFirst {α : Type} (p : α → Bool) : List α → List α
  | [] => []
  | x :: xs => if p x then xs else x :: deleteFirst p xs

theorem mem_mapSet {α : Type} {kv : String × α} {key : String} {v : α} :
    ∀ {l : List (String × α)}, kv ∈ mapSet key v l → kv = (key, v) ∨ kv ∈ l := by
  intro l
  induction l with
  | nil =>
    intro h
    simp only [mapSet, List.mem_singleton] at h
    exact Or.inl h
  | cons x xs ih =>
    intro h
    simp only [mapSet] at h
    split at h
    · rename_i heq
      rcases List.mem_cons.mp h with h1 | h1
      · left
        have : x.1 = key := by simpa using heq
        rw [h1, this]
      · exact Or.inr (List.mem_cons_of_mem _ h1)
    · rcases List.mem_cons.mp h with h1 | h1
      · exact Or.inr (by rw [h1]; exact List.mem_cons_self _ _)
      · rcases ih h1 with h2 | h2
        · exact Or.inl h2
        · exact Or.inr (List.mem_cons_of_mem _ h2)

theorem mem_deleteFirst {α : Type} {p : α → Bool} {x : α} :
    ∀ {l : List α}, x ∈ deleteFirst p l → x ∈ l := by
  intro l
  induction l with
  | nil => intro h; simp [deleteFirst] at h
  | cons y ys ih =>
    intro h
    simp only [deleteFirst] at h
    split at h
    · exact List.mem_cons_of_mem _ h
    · rcases List.mem_cons.mp h with h1 | h1
      · rw [h1]; exact List.mem_cons_self _ _
      · exact List.mem_cons_of_mem _ (ih h1)

theorem length_mapSet {α : Type} (key : String) (v : α) :
    ∀ l : List (String × α), (mapSet key v l).length ≤ l.length + 1 := by
  intro l
  induction l with
  | nil => simp [mapSet]
  | cons x xs ih =>
    simp only [mapSet]
    split
    · simp
    · simpa using Nat.succ_le_succ ih

theorem length_deleteFirst {α : Type} (p : α → Bool) :
    ∀ l : List α, (deleteFirst p l).length ≤ l.length := by
  intro l
  induction l with
  | nil => simp [deleteFirst]
  | cons x xs ih =>
    simp only [deleteFirst]
    split
    · exact Nat.le_succ _
    · simpa using Nat.succ_le_succ ih

theorem mapSet_fresh {α : Type} (key : String) (v : α) :
    ∀ l : List (String × α), key ∉ l.map Prod.fst → mapSet key v l = l ++ [(key, v)] := by
  intro l
  induction l with
  | nil => intro _; rfl
  | cons x xs ih =>
    intro h
    simp only [List.map_cons, List.mem_cons, not_or] at h
    obtain ⟨h1, h2⟩ := h
    cases x with
    | mk k w =>
      simp only [mapSet]
      rw [if_neg (by simp; exact fun he => h1 he.symm), ih h2]
      simp

theorem map_fst_mapSet {α : Type} (key : String) (v : α) :
    ∀ l : List (String × α), (mapSet key v l).map Prod.fst =
      if key ∈ l.map Prod.fst then l.map Prod.fst else l.map Prod.fst ++ [key] := by
  intro l
  induction l with
  | nil => simp [mapSet]
  | cons x xs ih =>
    cases x with
    | mk k w =>
      simp only [mapSet, List.map_cons]
      by_cases hk : k = key
      · subst hk
        rw [if_pos (by simp)]
        simp
      · rw [if_neg (by simp [hk]), List.map_cons, ih]
        by_cases hmem : key ∈ xs.map Prod.fst
        · rw [if_pos hmem, if_pos (by simp [hmem])]
        · rw [if_neg hmem,
            if_neg (by
              simp only [List.mem_cons, not_or]
              exact ⟨fun he => hk he.symm, hmem⟩),
            List.cons_append]

/-! ## The in-process ListCache (myListService.ts lines 10-48) -/

/-- One Map entry of the ListCache. -/
structure LocalEntry where
  data : PaginatedResponse
  expires : Nat
deriving DecidableEq

/-- The private Map of the ListCache, insertion-ordered like a JS Map. -/
abbrev LocalCache := List (String × LocalEntry)

/-- CACHE_TTL, the Redis TTL in seconds (default 300). -/
def CACHE_TTL : Nat := 300

/-- ListCache.get: absent gives null, an expired entry is deleted lazily
and gives null, otherwise the stored data is returned. -/
def listCacheGet (key : String) (now : Nat) (c : LocalCache) :
    Option PaginatedResponse × LocalCache :=
  match c.find? (fun kv => kv.1 == key) with
  | none => (none, c)
  | some kv =>
    if now > kv.2.expires then (none, deleteFirst (fun kv2 => kv2.1 == key) c)
    else (some kv.2.data, c)

/-- The eviction step of ListCache.set: at capacity (maxSize 500) the
first inserted key is deleted, but only when that key is truthy: the
source guards the delete with if (firstKey), so an undefined first key
(empty map) or an empty-string first key is skipped. -/
def listCacheEvictIfFull (c : LocalCache) : LocalCache :=
  if 500 ≤ c.length then
    match c.head? with
    | some kv => if kv.1 == "" then c else deleteFirst (fun kv2 => kv2.1 == kv.1) c
    | none => c
  else c

/-- ListCache.set: evict if at capacity, then insert or overwrite. -/
def listCacheSet (key : String) (data : PaginatedResponse) (ttlSeconds : Nat)
    (now : Nat) (c : LocalCache) : LocalCache :=
  mapSet key { data := data, expires := now + ttlSeconds * 1000 } (listCacheEvictIfFull c)

/-- ListCache.delete. -/
def listCacheDelete (key : String) (c : LocalCache) : LocalCache :=
  deleteFirst (fun kv => kv.1 == key) c

/-- ListCache.clear. -/
def listCacheClear (_c : LocalCache) : LocalCache := []

/-! ## The Redis tier (db/redis.ts and the service calls into it) -/

/-- One Redis value with its expiry instant (setEx stores a TTL). -/
structure RedisEntry where
  value : PaginatedResponse
  expiresAt : Nat
deriving DecidableEq

/-- The shared Redis keyspace. -/
abbrev RedisStore := List (String × RedisEntry)

/-- The Redis client as seen through getRedisClient: either not yet
initialized (getRedisClient throws), or a connection that is healthy or
failing (a failing connection makes every awaited command reject). -/
inductive RedisState where
  | uninitialized
  | conn (healthy : Bool) (store : RedisStore)
deriving DecidableEq

/-- redis.get on a healthy connection: nil when absent or past expiry. -/
def redisGet (st : RedisStore) (key : String) (now : Nat) : Option PaginatedResponse :=
  match st.find? (fun kv => kv.1 == key) with
  | none => none
  | some kv => if now < kv.2.expiresAt then some kv.2.value else none

/-- redis.setEx on a healthy connection. -/
def redisSetEx (st : RedisStore) (key : String) (v : PaginatedResponse)
    (ttlSeconds now : Nat) : RedisStore :=
  mapSet key { value := v, expiresAt := now + ttlSeconds * 1000 } st

/-- One redis.del batch: removes every listed key. -/
def redisDelKeys (st : RedisStore) (keys : List String) : RedisStore :=
  st.filter (fun kv => !(keys.contains kv.1))

/-- Batches of at most 100 keys, as built by the invalidation loop. -/
def chunks100 : List String → List (List String)
  | [] => []
  | x :: xs => ((x :: xs).take 100) :: chunks100 ((x :: xs).drop 100)
termination_by l => l.length
decreasing_by
  simp only [List.length_drop, List.length_cons]
  omega

/-! ## The service state and operations (myListService.ts) -/

/-- The whole single-instance world the service operates on. -/
structure ServerState where
  db : DB
  localCache : LocalCache
  redis : RedisState
deriving DecidableEq

/-- The errors thrown by the service, one constructor per distinct
thrown message:
contentNotFound for "contentType with id contentId not found",
alreadyInList for "This item is already in your list",
itemNotFoundInList for "Item not found in your list",
redisNotInitialized for "Redis client not initialized". -/
inductive ServiceError where
  | contentNotFound (kind : ContentType) (contentId : String)
  | alreadyInList
  | itemNotFoundInList
  | redisNotInitialized
deriving DecidableEq

/-- Descending-by-addedAt stable insertion used to model the sort stage
of the aggregation pipeline. -/
def insertDescByAddedAt (r : MyListRow) : List MyListRow → List MyListRow
  | [] => [r]
  | x :: xs => if x.addedAt ≤ r.addedAt then r :: x :: xs else x :: insertDescByAddedAt r xs

/-- The sort stage: addedAt descending, stable per snapshot. -/
def sortByAddedAtDesc (l : List MyListRow) : List MyListRow :=
  l.foldr insertDescByAddedAt []

/-- The two lookup stages plus the merge stage of the pipeline: exactly
one content collection is consulted, selected by contentType, and a
missing record leaves content absent. -/
def enrichRow (movies : List Movie) (tvshows : List TVShow) (r : MyListRow) : EnrichedItem :=
  { userId := r.userId, contentId := r.contentId, contentType := r.contentType,
    addedAt := r.addedAt,
    content :=
      match r.contentType with
      | ContentType.movie => (movies.find? (fun m => m.id == r.contentId)).map Sum.inl
      | ContentType.tvshow => (tvshows.find? (fun t => t.id == r.contentId)).map Sum.inr }

/-- Math.ceil(total / pageSize) on naturals (pageSize is at least 1 on
every path that reaches the service through the controller). -/
def ceilDiv (a b : Nat) : Nat := (a + b - 1) / b

/-- The DB fallback of getMyListItems: the aggregation pipeline
(match, facet of sort/skip/limit/lookup/merge and count) followed by
the assembly of the PaginatedResponse literal. -/
def buildResponse (db : DB) (userId : String) (page pageSize : Nat) : PaginatedResponse :=
  let matched := db.myList.filter (fun r => r.userId == userId)
  let sorted := sortByAddedAtDesc matched
  let skip := (page - 1) * pageSize
  let pageRows := (sorted.drop skip).take pageSize
  let items := pageRows.map (enrichRow db.movies db.tvshows)
  let total := matched.length
  { items := items, total := total, page := page, pageSize := pageSize,
    totalPages := ceilDiv total pageSize }

/-- The v2 cache key "mylist:v2:userId:page:pageSize". -/
def cacheKey (userId : String) (page pageSize : Nat) : String :=
  "mylist:v2:" ++ userId ++ ":" ++ natToString page ++ ":" ++ natToString pageSize

/-- The SCAN pattern "mylist:*:userId:*". -/
def redisPattern (userId : String) : String := "mylist:*:" ++ userId ++ ":*"

theorem redisPattern_data (u : String) :
    (redisPattern u).data = redisPatternChars u.data := by
  cases u with
  | mk d => simp [redisPattern, redisPatternChars, String.data]

/-- invalidateUserListCache: getRedisClient outside the try block, then
inside the try a full local clear followed by the SCAN loop collecting
every key matching the pattern and DEL calls in batches of 100; every
error of the try body is swallowed by the catch. -/
def invalidateUserListCache (userId : String) (s : ServerState) :
    Except ServiceError Unit × ServerState :=
  match s.redis with
  | RedisState.uninitialized =>
      (Except.error ServiceError.redisNotInitialized, s)
  | RedisState.conn true st =>
      let keysToDelete :=
        (st.map Prod.fst).filter (fun k => globMatch (redisPattern userId).data k.data)
      let st2 := (chunks100 keysToDelete).foldl redisDelKeys st
      (Except.ok (), { s with localCache := listCacheClear s.localCache,
                              redis := RedisState.conn true st2 })
  | RedisState.conn false st =>
      -- listCache.clear() ran before redis.scan rejected; the catch logs
      (Except.ok (), { s with localCache := listCacheClear s.localCache,
                              redis := RedisState.conn false st })

/-- getMyListItems: local tier, then Redis tier (get errors are caught
and treated as a miss), then the DB fallback whose result is stored in
both tiers (storage errors are caught). getRedisClient is called after
the local lookup and outside any try/catch. -/
def getMyListItems (userId : String) (page pageSize : Nat) (now : Nat) (s : ServerState) :
    Except ServiceError PaginatedResponse × ServerState :=
  let key := cacheKey userId page pageSize
  match listCacheGet key now s.localCache with
  | (some data, lc1) =>
      (Except.ok data, { s with localCache := lc1 })
  | (none, lc1) =>
      match s.redis with
      | RedisState.uninitialized =>
          (Except.error ServiceError.redisNotInitialized, { s with localCache := lc1 })
      | RedisState.conn healthy st =>
          let redisCached := if healthy then redisGet st key now else none
          match redisCached with
          | some data =>
              (Except.ok data,
               { s with localCache := listCacheSet key data 30 now lc1 })
          | none =>
              let response := buildResponse s.db userId page pageSize
              let lc2 := listCacheSet key response 30 now lc1
              let st2 := if healthy then redisSetEx st key response CACHE_TTL now else st
              (Except.ok response,
               { s with localCache := lc2, redis := RedisState.conn healthy st2 })

/-- verifyContentExists: consults the collection selected by the kind. -/
def verifyContentExists (contentId : String) (contentType : ContentType) (db : DB) : Bool :=
  match contentType with
  | ContentType.movie => (db.movies.find? (fun m => m.id == contentId)).isSome
  | ContentType.tvshow => (db.tvshows.find? (fun t => t.id == contentId)).isSome

/-- Whether the owner already has a membership row for the content: the
predicate enforced by the unique compound index on (userId, contentId). -/
def hasMembership (userId contentId : String) (db : DB) : Bool :=
  db.myList.any (fun r => r.userId == userId && r.contentId == contentId)

/-- Shared tail of the three mutations: await the invalidation, then
return the given value; an invalidation throw propagates instead. -/
def afterInvalidate {α : Type} (v : α) :
    Except ServiceError Unit × ServerState → Except ServiceError α × ServerState
  | (Except.ok _, s2) => (Except.ok v, s2)
  | (Except.error e, s2) => (Except.error e, s2)

/-- addToMyList: existence precondition, insert through the unique
index (a duplicate raises error code 11000, mapped to alreadyInList),
then invalidation; an invalidation throw escapes through the catch
because its code is not 11000. -/
def addToMyList (userId contentId : String) (contentType : ContentType) (now : Nat)
    (s : ServerState) : Except ServiceError MyListRow × ServerState :=
  if verifyContentExists contentId contentType s.db = false then
    (Except.error (ServiceError.contentNotFound contentType contentId), s)
  else if hasMembership userId contentId s.db then
    (Except.error ServiceError.alreadyInList, s)
  else
    let row : MyListRow :=
      { userId := userId, contentId := contentId, contentType := contentType, addedAt := now }
    let s1 := { s with db := { s.db with myList := s.db.myList ++ [row] } }
    afterInvalidate row (invalidateUserListCache userId s1)

/-- removeFromMyList: deleteOne on (userId, contentId), throw when the
deleted count is zero, otherwise invalidate and return true; the catch
rethrows every error. -/
def removeFromMyList (userId contentId : String) (s : ServerState) :
    Except ServiceError Bool × ServerState :=
  let remaining :=
    deleteFirst (fun r => r.userId == userId && r.contentId == contentId) s.db.myList
  let s1 := { s with db := { s.db with myList := remaining } }
  if hasMembership userId contentId s.db = false then
    (Except.error ServiceError.itemNotFoundInList, s1)
  else
    afterInvalidate true (invalidateUserListCache userId s1)

/-- clearUserList: deleteMany on the owner, then invalidation. -/
def clearUserList (userId : String) (s : ServerState) :
    Except ServiceError Nat × ServerState :=
  let remaining := s.db.myList.filter (fun r => !(r.userId == userId))
  let deletedCount := s.db.myList.length - remaining.length
  let s1 := { s with db := { s.db with myList := remaining } }
  afterInvalidate deletedCount (invalidateUserListCache userId s1)

/-! ## The controller pagination handling (myListController.ts lines 85-91) -/

/-- if (page < 1) page = 1. -/
def clampPage (page : Int) : Int := if page < 1 then 1 else page

/-- if (pageSize < 1) pageSize = 1; if (pageSize > maxPageSize)
pageSize = maxPageSize. -/
def clampPageSize (pageSize maxPageSize : Int) : Int :=
  let ps1 := if pageSize < 1 then 1 else pageSize
  if ps1 > maxPageSize then maxPageSize else ps1

/-- The controller read path: clamp both pagination parameters, then
call the service (which derives skip and the cache key from them). -/
def controllerGetMyListItems (userId : String) (page pageSize maxPageSize : Int)
    (now : Nat) (s : ServerState) : Except ServiceError PaginatedResponse × ServerState :=
  getMyListItems userId (clampPage page).toNat (clampPageSize pageSize maxPageSize).toNat now s

/-! ## Cache key structure -/

theorem cacheKey_data (u : String) (p ps : Nat) :
    (cacheKey u p ps).data =
      "mylist:v2:".data ++ (u.data ++ (':' :: (natToChars p ++ (':' :: natToChars ps)))) := by
  cases u with
  | mk d => simp [cacheKey, natToString, String.data]

/-- The key map is injective: the two trailing segments are colon-free
digit renderings, so the decomposition at the last two colons is
unique. Distinct (user, page, pageSize) triples never collide. -/
theorem cacheKey_inj {u1 u2 : String} {p1 p2 ps1 ps2 : Nat}
    (h : cacheKey u1 p1 ps1 = cacheKey u2 p2 ps2) : u1 = u2 ∧ p1 = p2 ∧ ps1 = ps2 := by
  have hd := congrArg String.data h
  rw [cacheKey_data, cacheKey_data] at hd
  have hd2 : ("mylist:v2:".data ++ u1.data ++ ':' :: natToChars p1) ++ ':' :: natToChars ps1
           = ("mylist:v2:".data ++ u2.data ++ ':' :: natToChars p2) ++ ':' :: natToChars ps2 := by
    simpa [List.append_assoc] using hd
  obtain ⟨ha, hps⟩ := split_last_colon _ _ _ _
    (mem_natToChars_ne_colon ps1) (mem_natToChars_ne_colon ps2) hd2
  have hps2 : ps1 = ps2 := natToChars_inj hps
  have ha2 : ("mylist:v2:".data ++ u1.data) ++ ':' :: natToChars p1
           = ("mylist:v2:".data ++ u2.data) ++ ':' :: natToChars p2 := by
    simpa [List.append_assoc] using ha
  obtain ⟨hb, hp⟩ := split_last_colon _ _ _ _
    (mem_natToChars_ne_colon p1) (mem_natToChars_ne_colon p2) ha2
  have hp2 : p1 = p2 := natToChars_inj hp
  have hu : u1.data = u2.data := List.append_cancel_left hb
  have hu2 : u1 = u2 := by
    cases u1; cases u2
    exact congrArg String.mk (by simpa using hu)
  exact ⟨hu2, hp2, hps2⟩

/-- A v2 cache key of user u is matched by the SCAN pattern of user u. -/
theorem glob_matches_cacheKey (u : String) (p ps : Nat) :
    globMatch (redisPattern u).data (cacheKey u p ps).data = true := by
  rw [redisPattern_data, cacheKey_data]
  have hmain := glob_matches_user_key u.data ['v', '2'] (natToChars p ++ ':' :: natToChars ps)
  have hshape : "mylist:".data ++ ['v', '2'] ++ (':' :: u.data ++ (':' :: (natToChars p ++ ':' :: natToChars ps)))
      = "mylist:v2:".data ++ (u.data ++ (':' :: (natToChars p ++ (':' :: natToChars ps)))) := by
    simp
  rw [hshape] at hmain
  exact hmain

/-- A versioned list cache key, "mylist:ver:userId:page:pageSize"; the
v2 format of the source is the instance ver = "v2". -/
def versionedKey (ver : String) (userId : String) (page pageSize : Nat) : String :=
  "mylist:" ++ ver ++ ":" ++ userId ++ ":" ++ natToString page ++ ":" ++ natToString pageSize

theorem versionedKey_v2 (u : String) (p ps : Nat) :
    versionedKey "v2" u p ps = cacheKey u p ps := by
  cases u with
  | mk d => simp [versionedKey, cacheKey, natToString, String.data]

/-- Every versioned key of user u, whatever the version tag, is matched
by the SCAN pattern of user u. -/
theorem glob_matches_versionedKey (ver u : String) (p ps : Nat) :
    globMatch (redisPattern u).data (versionedKey ver u p ps).data = true := by
  rw [redisPattern_data]
  have hdata : (versionedKey ver u p ps).data
      = "mylist:".data ++ ver.data ++ (':' :: u.data ++ (':' :: (natToChars p ++ ':' :: natToChars ps))) := by
    cases ver; cases u
    simp [versionedKey, natToString, String.data]
  rw [hdata]
  exact glob_matches_user_key u.data ver.data (natToChars p ++ ':' :: natToChars ps)

/-! ## Net effect of the batched invalidation loop -/

theorem mem_redisDelKeys {kv : String × RedisEntry} {st : RedisStore} {keys : List String} :
    kv ∈ redisDelKeys st keys ↔ kv ∈ st ∧ kv.1 ∉ keys := by
  simp [redisDelKeys, List.mem_filter]

theorem mem_foldl_redisDelKeys :
    ∀ (kss : List (List String)) (st : RedisStore) (kv : String × RedisEntry),
      kv ∈ kss.foldl redisDelKeys st ↔ kv ∈ st ∧ ∀ ks ∈ kss, kv.1 ∉ ks := by
  intro kss
  induction kss with
  | nil => intro st kv; simp
  | cons ks rest ih =>
    intro st kv
    simp only [List.foldl_cons]
    rw [ih, mem_redisDelKeys]
    constructor
    · rintro ⟨⟨h1, h2⟩, h3⟩
      refine ⟨h1, ?_⟩
      intro ks2 hks2
      rcases List.mem_cons.mp hks2 with he | he
      · rw [he]; exact h2
      · exact h3 ks2 he
    · rintro ⟨h1, h2⟩
      exact ⟨⟨h1, h2 ks (List.mem_cons_self _ _)⟩,
        fun ks2 hks2 => h2 ks2 (List.mem_cons_of_mem _ hks2)⟩

theorem mem_chunks100 :
    ∀ (l : List String) (k : String), (∃ ks ∈ chunks100 l, k ∈ ks) ↔ k ∈ l := by
  intro l
  induction l using chunks100.induct with
  | case1 => intro k; simp [chunks100]
  | case2 x xs ih =>
    intro k
    unfold chunks100
    constructor
    · rintro ⟨ks, hks, hk⟩
      rcases List.mem_cons.mp hks with he | he
      · subst he
        exact List.take_subset 100 (x :: xs) hk
      · have := (ih k).mp ⟨ks, he, hk⟩
        exact List.drop_subset 100 (x :: xs) this
    · intro hk
      have hsplit : k ∈ (x :: xs).take 100 ∨ k ∈ (x :: xs).drop 100 := by
        have htd : (x :: xs).take 100 ++ (x :: xs).drop 100 = x :: xs :=
          List.take_append_drop 100 (x :: xs)
        have hk2 : k ∈ (x :: xs).take 100 ++ (x :: xs).drop 100 := by
          rw [htd]; exact hk
        exact List.mem_append.mp hk2
      rcases hsplit with h | h
      · exact ⟨(x :: xs).take 100, List.mem_cons_self _ _, h⟩
      · obtain ⟨ks, hks, hkin⟩ := (ih k).mpr h
        exact ⟨ks, List.mem_cons_of_mem _ hks, hkin⟩

/-- The SCAN loop plus the batched DEL calls net to: an entry survives
invalidation exactly when it was present and its key does not match the
pattern of the user. -/
theorem mem_invalidated_store (u : String) (st : RedisStore) (kv : String × RedisEntry) :
    kv ∈ (chunks100 ((st.map Prod.fst).filter
          (fun k => globMatch (redisPattern u).data k.data))).foldl redisDelKeys st
      ↔ kv ∈ st ∧ globMatch (redisPattern u).data kv.1.data = false := by
  rw [mem_foldl_redisDelKeys]
  constructor
  · rintro ⟨hmem, hall⟩
    refine ⟨hmem, ?_⟩
    by_contra hglob
    have hglob2 : globMatch (redisPattern u).data kv.1.data = true := by
      cases hcase : globMatch (redisPattern u).data kv.1.data with
      | false => exact absurd hcase hglob
      | true => rfl
    have hk : kv.1 ∈ (st.map Prod.fst).filter
        (fun k => globMatch (redisPattern u).data k.data) :=
      List.mem_filter.mpr ⟨List.mem_map_of_mem Prod.fst hmem, hglob2⟩
    obtain ⟨ks, hks, hkin⟩ := (mem_chunks100 _ kv.1).mpr hk
    exact hall ks hks hkin
  · rintro ⟨hmem, hglob⟩
    refine ⟨hmem, ?_⟩
    intro ks hks hkin
    have hk := (mem_chunks100 _ kv.1).mp ⟨ks, hks, hkin⟩
    have := (List.mem_filter.mp hk).2
    rw [hglob] at this
    exact Bool.false_ne_true this

/-! ## Behaviour of the ListCache operations -/

theorem listCacheGet_mem_state {kv : String × LocalEntry} {key : String} {now : Nat}
    {c : LocalCache} (h : kv ∈ (listCacheGet key now c).2) : kv ∈ c := by
  unfold listCacheGet at h
  cases hf : c.find? (fun kv2 => kv2.1 == key) with
  | none => rw [hf] at h; exact h
  | some kv2 =>
    rw [hf] at h
    dsimp at h
    split at h
    · exact mem_deleteFirst h
    · exact h

theorem listCacheGet_hit {key : String} {now : Nat} {c : LocalCache}
    {d : PaginatedResponse} {lc : LocalCache}
    (h : listCacheGet key now c = (some d, lc)) :
    ∃ e : LocalEntry, (key, e) ∈ c ∧ e.data = d := by
  unfold listCacheGet at h
  cases hf : c.find? (fun kv2 => kv2.1 == key) with
  | none => rw [hf] at h; simp at h
  | some kv =>
    rw [hf] at h
    dsimp at h
    split at h
    · simp at h
    · have hdata : kv.2.data = d := by
        have := congrArg Prod.fst h
        simpa using this
      have hkey : kv.1 = key := by
        have hp := List.find?_some hf
        simpa using hp
      refine ⟨kv.2, ?_, hdata⟩
      have hmem := List.mem_of_find?_eq_some hf
      rw [← hkey]
      exact hmem

theorem mem_listCacheEvictIfFull {kv : String × LocalEntry} {c : LocalCache}
    (h : kv ∈ listCacheEvictIfFull c) : kv ∈ c := by
  unfold listCacheEvictIfFull at h
  revert h
  split
  · split
    · split
      · exact fun h1 => h1
      · exact fun h1 => mem_deleteFirst h1
    · exact fun h1 => h1
  · exact fun h1 => h1

theorem mem_listCacheSet {kv : String × LocalEntry} {key : String}
    {data : PaginatedResponse} {ttl now : Nat} {c : LocalCache}
    (h : kv ∈ listCacheSet key data ttl now c) :
    kv = (key, { data := data, expires := now + ttl * 1000 }) ∨ kv ∈ c := by
  unfold listCacheSet at h
  rcases mem_mapSet h with h1 | h1
  · exact Or.inl h1
  · exact Or.inr (mem_listCacheEvictIfFull h1)

/-! ## Behaviour of the Redis operations -/

theorem redisGet_hit {st : RedisStore} {key : String} {now : Nat} {d : PaginatedResponse}
    (h : redisGet st key now = some d) :
    ∃ e : RedisEntry, (key, e) ∈ st ∧ e.value = d := by
  unfold redisGet at h
  cases hf : st.find? (fun kv => kv.1 == key) with
  | none => rw [hf] at h; simp at h
  | some kv =>
    rw [hf] at h
    dsimp at h
    split at h
    · have hval : kv.2.value = d := by simpa using h
      have hkey : kv.1 = key := by
        have hp := List.find?_some hf
        simpa using hp
      refine ⟨kv.2, ?_, hval⟩
      have hmem := List.mem_of_find?_eq_some hf
      rw [← hkey]
      exact hmem
    · simp at h

theorem mem_redisSetEx {kv : String × RedisEntry} {st : RedisStore} {key : String}
    {v : PaginatedResponse} {ttl now : Nat}
    (h : kv ∈ redisSetEx st key v ttl now) :
    kv = (key, { value := v, expiresAt := now + ttl * 1000 }) ∨ kv ∈ st := by
  unfold redisSetEx at h
  exact mem_mapSet h

/-! ## Frame lemmas: a mutation of one owner leaves the pages of every
other owner unchanged -/

theorem filter_append_single_ne {rows : List MyListRow} {row : MyListRow} {u : String}
    (h : row.userId ≠ u) :
    (rows ++ [row]).filter (fun r => r.userId == u) = rows.filter (fun r => r.userId == u) := by
  rw [List.filter_append]
  have : [row].filter (fun r => r.userId == u) = [] := by
    have hb : (row.userId == u) = false := by
      simp [h]
    simp [List.filter, hb]
  rw [this, List.append_nil]

theorem filter_deleteFirst_of_disjoint {α : Type} (p q : α → Bool)
    (hpq : ∀ x, p x = true → q x = false) :
    ∀ l : List α, (deleteFirst p l).filter q = l.filter q := by
  intro l
  induction l with
  | nil => rfl
  | cons x xs ih =>
    simp only [deleteFirst]
    split
    · rename_i hp
      rw [List.filter_cons_of_neg]
      simp [hpq x hp]
    · rw [List.filter_cons, List.filter_cons, ih]

theorem filter_filter_of_imp {α : Type} (w q : α → Bool) (h : ∀ x, q x = true → w x = true) :
    ∀ l : List α, (l.filter w).filter q = l.filter q := by
  intro l
  induction l with
  | nil => rfl
  | cons x xs ih =>
    cases hw : w x with
    | true =>
      rw [List.filter_cons_of_pos hw, List.filter_cons, List.filter_cons, ih]
    | false =>
      have hq : q x = false := by
        cases hqc : q x with
        | false => rfl
        | true => rw [h x hqc] at hw; cases hw
      rw [List.filter_cons_of_neg (by simp [hw]), ih,
        List.filter_cons_of_neg (by simp [hq])]

theorem deleteFirst_id_of_not_any {α : Type} {p : α → Bool} :
    ∀ {l : List α}, l.any p = false → deleteFirst p l = l := by
  intro l
  induction l with
  | nil => intro _; rfl
  | cons x xs ih =>
    intro h
    simp only [List.any_cons, Bool.or_eq_false_iff] at h
    unfold deleteFirst
    rw [if_neg (by simp [h.1]), ih h.2]

/-- The aggregation result of an owner depends on the membership rows
only through the rows of that owner. -/
theorem buildResponse_frame (db : DB) (rows2 : List MyListRow) (u : String)
    (hrows : rows2.filter (fun r => r.userId == u)
      = db.myList.filter (fun r => r.userId == u)) :
    ∀ p ps, buildResponse { db with myList := rows2 } u p ps = buildResponse db u p ps := by
  intro p ps
  unfold buildResponse
  rw [hrows]

theorem afterInvalidate_snd {α : Type} (v : α) (r : Except ServiceError Unit × ServerState) :
    (afterInvalidate v r).2 = r.2 := by
  cases r with
  | mk e s2 => cases e <;> rfl

/-! ## The cache coherence invariant -/

/-- A cached page value is coherent for the store when it equals the
uncached aggregation for every (user, page, pageSize) triple the key
denotes (by injectivity of the key there is at most one). -/
def respCoherent (db : DB) (key : String) (r : PaginatedResponse) : Prop :=
  ∀ u p ps, key = cacheKey u p ps → r = buildResponse db u p ps

/-- Failure-free single-instance invariant: Redis is connected and
healthy, and every entry of either cache tier holds exactly the page
the durable store would produce right now. -/
def coherent (s : ServerState) : Prop :=
  (∀ kv ∈ s.localCache, respCoherent s.db kv.1 kv.2.data) ∧
  (∀ st, s.redis = RedisState.conn true st →
    ∀ kv ∈ st, respCoherent s.db kv.1 kv.2.value) ∧
  (∃ st, s.redis = RedisState.conn true st)

theorem respCoherent_self (db : DB) (u : String) (p ps : Nat) :
    respCoherent db (cacheKey u p ps) (buildResponse db u p ps) := by
  intro u2 p2 ps2 hk
  obtain ⟨h1, h2, h3⟩ := cacheKey_inj hk
  rw [h1, h2, h3]

theorem respCoherent_of_build {db : DB} {u : String} {p ps : Nat} {r : PaginatedResponse}
    (h : r = buildResponse db u p ps) : respCoherent db (cacheKey u p ps) r := by
  rw [h]
  exact respCoherent_self db u p ps

/-- Invalidation after a mutation restores coherence: the local tier is
emptied, and every surviving Redis entry either belongs to another
owner (whose page is unchanged by the mutation) or would match the
deleted pattern, a contradiction. -/
theorem invalidate_coherent {s : ServerState} {st : RedisStore} (u : String) (db2 : DB)
    (hst : s.redis = RedisState.conn true st)
    (hr : ∀ kv ∈ st, respCoherent s.db kv.1 kv.2.value)
    (hframe : ∀ u2, u2 ≠ u → ∀ p ps, buildResponse db2 u2 p ps = buildResponse s.db u2 p ps) :
    coherent (invalidateUserListCache u { s with db := db2 }).2 := by
  unfold invalidateUserListCache
  have hred : ({ s with db := db2 } : ServerState).redis = RedisState.conn true st := hst
  rw [hred]
  refine ⟨?_, ?_, ?_⟩
  · intro kv hkv
    simp [listCacheClear] at hkv
  · intro st0 hst0 kv hkv
    simp only [RedisState.conn.injEq, true_and] at hst0
    rw [← hst0] at hkv
    obtain ⟨hmem, hglob⟩ := (mem_invalidated_store u st kv).mp hkv
    intro u2 p2 ps2 hk
    by_cases hu : u2 = u
    · exfalso
      subst hu
      rw [hk] at hglob
      rw [glob_matches_cacheKey u2 p2 ps2] at hglob
      simp at hglob
    · have hold := hr kv hmem u2 p2 ps2 hk
      rw [hframe u2 hu p2 ps2]
      exact hold
  · exact ⟨_, rfl⟩

/-- In a coherent state the read path returns exactly the page the
uncached aggregation over the current rows yields  whichever tier
answers  and the post state is coherent again. -/
theorem getMyListItems_coherent (u : String) (p ps now : Nat) {s : ServerState}
    (hc : coherent s) :
    (getMyListItems u p ps now s).1 = Except.ok (buildResponse s.db u p ps) ∧
      coherent (getMyListItems u p ps now s).2 := by
  obtain ⟨hl, hr, st, hst⟩ := hc
  have hrst := hr st hst
  have hsub : ∀ kv : String × LocalEntry,
      kv ∈ (listCacheGet (cacheKey u p ps) now s.localCache).2 → kv ∈ s.localCache :=
    fun kv hkv => listCacheGet_mem_state hkv
  simp only [getMyListItems]
  cases hget : listCacheGet (cacheKey u p ps) now s.localCache with
  | mk o lc1 =>
    have hsub1 : ∀ kv : String × LocalEntry, kv ∈ lc1 → kv ∈ s.localCache := by
      intro kv hkv
      exact hsub kv (by rw [hget]; exact hkv)
    cases o with
    | some d =>
      obtain ⟨e, hmem, hdata⟩ := listCacheGet_hit hget
      have hbuild : d = buildResponse s.db u p ps := by
        rw [← hdata]
        exact hl (cacheKey u p ps, e) hmem u p ps rfl
      refine ⟨by rw [hbuild], ?_, ?_, ⟨st, hst⟩⟩
      · intro kv hkv
        exact hl kv (hsub1 kv hkv)
      · intro st0 hst0 kv hkv
        exact hr st0 hst0 kv hkv
    | none =>
      rw [hst]
      simp only [eq_self_iff_true, if_true]
      cases hred : redisGet st (cacheKey u p ps) now with
      | some d =>
        obtain ⟨e, hmem, hval⟩ := redisGet_hit hred
        have hbuild : d = buildResponse s.db u p ps := by
          rw [← hval]
          exact hrst (cacheKey u p ps, e) hmem u p ps rfl
        refine ⟨by rw [hbuild], ?_, ?_, ⟨st, rfl⟩⟩
        · intro kv hkv
          rcases mem_listCacheSet hkv with he | he
          · rw [he]
            exact respCoherent_of_build hbuild
          · exact hl kv (hsub1 kv he)
        · intro st0 hst0 kv hkv
          simp only [RedisState.conn.injEq, true_and] at hst0
          rw [← hst0] at hkv
          exact hrst kv hkv
      | none =>
        refine ⟨rfl, ?_, ?_, ⟨_, rfl⟩⟩
        · intro kv hkv
          rcases mem_listCacheSet hkv with he | he
          · rw [he]
            exact respCoherent_of_build rfl
          · exact hl kv (hsub1 kv he)
        · intro st0 hst0 kv hkv
          simp only [RedisState.conn.injEq, true_and] at hst0
          rw [← hst0] at hkv
          rcases mem_redisSetEx hkv with he | he
          · rw [he]
            exact respCoherent_of_build rfl
          · exact hr st hst kv he

theorem addToMyList_coherent {s : ServerState} (hc : coherent s) (u c : String)
    (k : ContentType) (now : Nat) : coherent (addToMyList u c k now s).2 := by
  obtain ⟨hl, hr, st, hst⟩ := hc
  have hrst := hr st hst
  simp only [addToMyList]
  split
  · exact ⟨hl, hr, st, hst⟩
  · split
    · exact ⟨hl, hr, st, hst⟩
    · have hframe : ∀ u2, u2 ≠ u → ∀ p ps,
          buildResponse { s.db with
            myList := s.db.myList ++ [(⟨u, c, k, now⟩ : MyListRow)] } u2 p ps
            = buildResponse s.db u2 p ps := by
        intro u2 hu2 p ps
        exact buildResponse_frame s.db (s.db.myList ++ [(⟨u, c, k, now⟩ : MyListRow)]) u2
          (filter_append_single_ne (fun he => hu2 he.symm)) p ps
      have hinv := invalidate_coherent u
        { s.db with myList := s.db.myList ++ [(⟨u, c, k, now⟩ : MyListRow)] } hst hrst hframe
      rw [afterInvalidate_snd]
      exact hinv

theorem removeFromMyList_coherent {s : ServerState} (hc : coherent s) (u c : String) :
    coherent (removeFromMyList u c s).2 := by
  obtain ⟨hl, hr, st, hst⟩ := hc
  have hrst := hr st hst
  simp only [removeFromMyList]
  split
  · rename_i hnomem
    have hdel : deleteFirst (fun r => r.userId == u && r.contentId == c) s.db.myList
        = s.db.myList := by
      apply deleteFirst_id_of_not_any
      simpa [hasMembership] using hnomem
    rw [hdel]
    exact ⟨hl, hr, st, hst⟩
  · have hframe : ∀ u2, u2 ≠ u → ∀ p ps,
        buildResponse { s.db with
          myList := deleteFirst (fun r => r.userId == u && r.contentId == c) s.db.myList }
          u2 p ps = buildResponse s.db u2 p ps := by
      intro u2 hu2 p ps
      refine buildResponse_frame s.db
        (deleteFirst (fun r => r.userId == u && r.contentId == c) s.db.myList) u2 ?_ p ps
      apply filter_deleteFirst_of_disjoint
      intro x hx
      simp only [Bool.and_eq_true, beq_iff_eq] at hx
      have hne : ¬u = u2 := fun he => hu2 he.symm
      simp [hx.1, hne]
    have hinv := invalidate_coherent u
      { s.db with
        myList := deleteFirst (fun r => r.userId == u && r.contentId == c) s.db.myList }
      hst hrst hframe
    rw [afterInvalidate_snd]
    exact hinv

theorem clearUserList_coherent {s : ServerState} (hc : coherent s) (u : String) :
    coherent (clearUserList u s).2 := by
  obtain ⟨hl, hr, st, hst⟩ := hc
  have hrst := hr st hst
  simp only [clearUserList]
  have hframe : ∀ u2, u2 ≠ u → ∀ p ps,
      buildResponse { s.db with
        myList := s.db.myList.filter (fun r => !(r.userId == u)) } u2 p ps
        = buildResponse s.db u2 p ps := by
    intro u2 hu2 p ps
    refine buildResponse_frame s.db
      (s.db.myList.filter (fun r => !(r.userId == u))) u2 ?_ p ps
    apply filter_filter_of_imp
    intro x hx
    simp only [beq_iff_eq] at hx
    simp [hx, hu2]
  have hinv := invalidate_coherent u
    { s.db with myList := s.db.myList.filter (fun r => !(r.userId == u)) } hst hrst hframe
  rw [afterInvalidate_snd]
  exact hinv

/-! ## Reachable states of a single-instance, failure-free, sequential
execution -/

/-- States reachable from a fresh instance (empty caches, healthy
Redis, any durable-store contents) by any sequence of service calls. -/
inductive Reachable : ServerState → Prop where
  | init (db : DB) :
      Reachable { db := db, localCache := [], redis := RedisState.conn true [] }
  | stepGet (u : String) (p ps now : Nat) {s : ServerState} :
      Reachable s → Reachable (getMyListItems u p ps now s).2
  | stepAdd (u c : String) (k : ContentType) (now : Nat) {s : ServerState} :
      Reachable s → Reachable (addToMyList u c k now s).2
  | stepRemove (u c : String) {s : ServerState} :
      Reachable s → Reachable (removeFromMyList u c s).2
  | stepClear (u : String) {s : ServerState} :
      Reachable s → Reachable (clearUserList u s).2

theorem reachable_coherent {s : ServerState} (h : Reachable s) : coherent s := by
  induction h with
  | init db =>
    refine ⟨?_, ?_, ⟨[], rfl⟩⟩
    · intro kv hkv
      simp at hkv
    · intro st0 hst0 kv hkv
      simp only [RedisState.conn.injEq, true_and] at hst0
      rw [← hst0] at hkv
      simp at hkv
  | stepGet u p ps now _ ih => exact (getMyListItems_coherent u p ps now ih).2
  | stepAdd u c k now _ ih => exact addToMyList_coherent ih u c k now
  | stepRemove u c _ ih => exact removeFromMyList_coherent ih u c
  | stepClear u _ ih => exact clearUserList_coherent ih u

/-- C1. Sequential cache coherence: in any single-instance, failure-free
sequential execution (any reachable state), getMyListItems returns
exactly the page the uncached enrichment query over the current
membership rows would return. In particular, after a successful
addToMyList the next getMyListItems reflects the new membership, and
after removeFromMyList no subsequent getMyListItems ever returns the
removed content, even if a page containing it was cached before the
mutation. -/
theorem c1_sequential_cache_coherence {s : ServerState} (h : Reachable s)
    (u : String) (p ps now : Nat) :
    (getMyListItems u p ps now s).1 = Except.ok (buildResponse s.db u p ps) :=
  (getMyListItems_coherent u p ps now (reachable_coherent h)).1

/-- C1 witness: the theorem applied to a concrete reachable state. -/
theorem c1_sequential_cache_coherence_witness :
    (getMyListItems "u1" 1 20 0
      { db := { myList := [], movies := [], tvshows := [] },
        localCache := [], redis := RedisState.conn true [] }).1
      = Except.ok (buildResponse { myList := [], movies := [], tvshows := [] } "u1" 1 20) :=
  c1_sequential_cache_coherence
    (Reachable.init { myList := [], movies := [], tvshows := [] }) "u1" 1 20 0

/-! ## Properties of the sort stage -/

theorem insertDescByAddedAt_perm (r : MyListRow) :
    ∀ l : List MyListRow, List.Perm (insertDescByAddedAt r l) (r :: l) := by
  intro l
  induction l with
  | nil => exact List.Perm.refl _
  | cons x xs ih =>
    unfold insertDescByAddedAt
    split
    · exact List.Perm.refl _
    · exact (ih.cons x).trans (List.Perm.swap r x xs)

theorem sortByAddedAtDesc_perm :
    ∀ l : List MyListRow, List.Perm (sortByAddedAtDesc l) l := by
  intro l
  induction l with
  | nil => exact List.Perm.refl _
  | cons x xs ih =>
    have : sortByAddedAtDesc (x :: xs) = insertDescByAddedAt x (sortByAddedAtDesc xs) := rfl
    rw [this]
    exact (insertDescByAddedAt_perm x (sortByAddedAtDesc xs)).trans (ih.cons x)

theorem insertDescByAddedAt_sorted (r : MyListRow) :
    ∀ l : List MyListRow, l.Pairwise (fun a b => b.addedAt ≤ a.addedAt) →
      (insertDescByAddedAt r l).Pairwise (fun a b => b.addedAt ≤ a.addedAt) := by
  intro l
  induction l with
  | nil => intro _; simp [insertDescByAddedAt]
  | cons x xs ih =>
    intro h
    rw [List.pairwise_cons] at h
    unfold insertDescByAddedAt
    split
    · rename_i hle
      rw [List.pairwise_cons]
      refine ⟨?_, List.pairwise_cons.mpr h⟩
      intro y hy
      rcases List.mem_cons.mp hy with he | he
      · rw [he]; exact hle
      · exact Nat.le_trans (h.1 y he) hle
    · rename_i hgt
      push_neg at hgt
      rw [List.pairwise_cons]
      refine ⟨?_, ih h.2⟩
      intro y hy
      have hy2 : y ∈ r :: xs := (insertDescByAddedAt_perm r xs).mem_iff.mp hy
      rcases List.mem_cons.mp hy2 with he | he
      · rw [he]; exact Nat.le_of_lt hgt
      · exact h.1 y he

theorem sortByAddedAtDesc_sorted :
    ∀ l : List MyListRow,
      (sortByAddedAtDesc l).Pairwise (fun a b => b.addedAt ≤ a.addedAt) := by
  intro l
  induction l with
  | nil => simp [sortByAddedAtDesc]
  | cons x xs ih =>
    exact insertDescByAddedAt_sorted x (sortByAddedAtDesc xs) ih

/-- C5. Enrichment query shape: on a cache miss the page is the rows of
the owner sorted by addedAt descending (a stable sort that is a
permutation of the filtered rows), with (page-1)*pageSize rows skipped
and pageSize rows taken; each page row is joined with its content
record from exactly the one collection selected by its contentType, and
a row whose record is missing keeps all its membership fields with an
absent content instead of failing the page. -/
theorem c5_enrichment_query_shape (db : DB) (u : String) (page ps : Nat) :
    (buildResponse db u page ps).items
        = (((sortByAddedAtDesc (db.myList.filter (fun r => r.userId == u))).drop
            ((page - 1) * ps)).take ps).map (enrichRow db.movies db.tvshows)
    ∧ List.Perm (sortByAddedAtDesc (db.myList.filter (fun r => r.userId == u)))
        (db.myList.filter (fun r => r.userId == u))
    ∧ (sortByAddedAtDesc (db.myList.filter (fun r => r.userId == u))).Pairwise
        (fun a b => b.addedAt ≤ a.addedAt)
    ∧ (∀ r : MyListRow, r.contentType = ContentType.movie →
        (enrichRow db.movies db.tvshows r).content
          = (db.movies.find? (fun m => m.id == r.contentId)).map Sum.inl)
    ∧ (∀ r : MyListRow, r.contentType = ContentType.tvshow →
        (enrichRow db.movies db.tvshows r).content
          = (db.tvshows.find? (fun t => t.id == r.contentId)).map Sum.inr)
    ∧ (∀ r : MyListRow, (enrichRow db.movies db.tvshows r).userId = r.userId
        ∧ (enrichRow db.movies db.tvshows r).contentId = r.contentId
        ∧ (enrichRow db.movies db.tvshows r).contentType = r.contentType
        ∧ (enrichRow db.movies db.tvshows r).addedAt = r.addedAt) := by
  refine ⟨rfl, sortByAddedAtDesc_perm _, sortByAddedAtDesc_sorted _, ?_, ?_, ?_⟩
  · intro r hr
    simp [enrichRow, hr]
  · intro r hr
    simp [enrichRow, hr]
  · intro r
    exact ⟨rfl, rfl, rfl, rfl⟩

/-- C6. Pagination arithmetic: the response total is the number of the
membership rows of the owner, totalPages is ceil(total / pageSize) (so
a total of 25 at pageSize 20 gives 2 pages), and an owner with zero
memberships gets items [], total 0, totalPages 0 whatever the page (the
pageSize reaching the service is at least 1 because the controller
clamps it). -/
theorem c6_pagination_arithmetic (db : DB) (u : String) (page ps : Nat) (h : 1 ≤ ps) :
    (buildResponse db u page ps).total = (db.myList.filter (fun r => r.userId == u)).length
    ∧ (buildResponse db u page ps).totalPages
        = ceilDiv (db.myList.filter (fun r => r.userId == u)).length ps
    ∧ ((db.myList.filter (fun r => r.userId == u)).length = 0 →
        (buildResponse db u page ps).items = []
          ∧ (buildResponse db u page ps).total = 0
          ∧ (buildResponse db u page ps).totalPages = 0)
    ∧ ((buildResponse db u page ps).total = 25 → ps = 20 →
        (buildResponse db u page ps).totalPages = 2) := by
  refine ⟨rfl, rfl, ?_, ?_⟩
  · intro h0
    have hnil : db.myList.filter (fun r => r.userId == u) = [] :=
      List.length_eq_zero.mp h0
    refine ⟨?_, ?_, ?_⟩
    · show (((sortByAddedAtDesc (db.myList.filter (fun r => r.userId == u))).drop
          ((page - 1) * ps)).take ps).map (enrichRow db.movies db.tvshows) = []
      rw [hnil]
      simp [sortByAddedAtDesc]
    · exact h0
    · show ceilDiv (db.myList.filter (fun r => r.userId == u)).length ps = 0
      rw [h0]
      unfold ceilDiv
      exact Nat.div_eq_of_lt (by omega)
  · intro h25 hps
    show ceilDiv (db.myList.filter (fun r => r.userId == u)).length ps = 2
    have h25b : (db.myList.filter (fun r => r.userId == u)).length = 25 := h25
    rw [h25b, hps]
    decide

/-- C6 witness: a store with one owner and 25 rows would need symbolic
setup, so the theorem is instantiated at the empty store with
pageSize 20 instead, which exercises the hypothesis. -/
theorem c6_pagination_arithmetic_witness :
    (buildResponse { myList := [], movies := [], tvshows := [] } "u1" 3 20).total = 0
    ∧ (buildResponse { myList := [], movies := [], tvshows := [] } "u1" 3 20).totalPages = 0 := by
  have h := c6_pagination_arithmetic
    { myList := [], movies := [], tvshows := [] } "u1" 3 20 (by decide)
  have hz := h.2.2.1 (by decide)
  exact ⟨hz.2.1, hz.2.2⟩

/-- C7. Pagination clamping in the controller: a page below 1 becomes
1, a pageSize below 1 becomes 1, a pageSize above the configured
maximum becomes that maximum (1000 with maximum 100 becomes 100), and
the service is called with the clamped values, so both the skip
computation and the cache key are formed from them. -/
theorem c7_pagination_clamping (page pageSize maxPageSize : Int) (h : 1 ≤ maxPageSize) :
    (page < 1 → clampPage page = 1)
    ∧ (1 ≤ page → clampPage page = page)
    ∧ (pageSize < 1 → clampPageSize pageSize maxPageSize = 1)
    ∧ (maxPageSize < pageSize → clampPageSize pageSize maxPageSize = maxPageSize)
    ∧ (1 ≤ pageSize → pageSize ≤ maxPageSize → clampPageSize pageSize maxPageSize = pageSize)
    ∧ clampPageSize 1000 100 = 100
    ∧ (∀ (u : String) (now : Nat) (s : ServerState),
        controllerGetMyListItems u page pageSize maxPageSize now s
          = getMyListItems u (clampPage page).toNat
              (clampPageSize pageSize maxPageSize).toNat now s) := by
  refine ⟨?_, ?_, ?_, ?_, ?_, by decide, fun u now s => rfl⟩
  · intro hp
    unfold clampPage
    rw [if_pos hp]
  · intro hp
    unfold clampPage
    rw [if_neg (by omega)]
  · intro hp
    unfold clampPageSize
    dsimp only
    rw [if_pos hp]
    have hng : ¬(1 : Int) > maxPageSize := by omega
    rw [if_neg hng]
  · intro hp
    unfold clampPageSize
    dsimp only
    have hn1 : ¬pageSize < 1 := by omega
    rw [if_neg hn1, if_pos hp]
  · intro h1 h2
    unfold clampPageSize
    dsimp only
    have hn1 : ¬pageSize < 1 := by omega
    rw [if_neg hn1]
    have hng : ¬pageSize > maxPageSize := by omega
    rw [if_neg hng]

/-- C7 witness: the clamping facts at page 0, pageSize 1000, maximum
100. -/
theorem c7_pagination_clamping_witness :
    clampPage 0 = 1 ∧ clampPageSize 1000 100 = 100 := by
  have h := c7_pagination_clamping 0 1000 100 (by decide)
  exact ⟨h.1 (by decide), h.2.2.2.2.2.1⟩

/-! ## Outcome lemmas for the mutation path -/

theorem invalidate_ok_of_init {u : String} {s : ServerState}
    (h : s.redis ≠ RedisState.uninitialized) :
    (invalidateUserListCache u s).1 = Except.ok ()
    ∧ (invalidateUserListCache u s).2.db = s.db
    ∧ (invalidateUserListCache u s).2.localCache = [] := by
  unfold invalidateUserListCache
  cases hres : s.redis with
  | uninitialized => exact absurd hres h
  | conn healthy st =>
    cases healthy
    · exact ⟨rfl, rfl, rfl⟩
    · exact ⟨rfl, rfl, rfl⟩

theorem invalidate_uninit {u : String} {s : ServerState}
    (h : s.redis = RedisState.uninitialized) :
    invalidateUserListCache u s = (Except.error ServiceError.redisNotInitialized, s) := by
  unfold invalidateUserListCache
  rw [h]

theorem afterInvalidate_eq_ok {α : Type} (v : α) {r : Except ServiceError Unit × ServerState}
    (h : r.1 = Except.ok ()) : afterInvalidate v r = (Except.ok v, r.2) := by
  cases r with
  | mk e s2 =>
    cases e with
    | ok w => rfl
    | error e2 => simp at h

theorem option_isSome_false_iff {α : Type} (o : Option α) : o.isSome = false ↔ o = none := by
  cases o <;> simp

theorem hasMembership_iff (u c : String) (db : DB) :
    hasMembership u c db = true ↔ ∃ r ∈ db.myList, r.userId = u ∧ r.contentId = c := by
  unfold hasMembership
  rw [List.any_eq_true]
  constructor
  · rintro ⟨r, hr, hp⟩
    simp only [Bool.and_eq_true, beq_iff_eq] at hp
    exact ⟨r, hr, hp⟩
  · rintro ⟨r, hr, hp⟩
    refine ⟨r, hr, ?_⟩
    simp only [Bool.and_eq_true, beq_iff_eq]
    exact hp

/-- The spec-side precondition of addItem: the content collection
selected by the kind holds a record with the given id. -/
def contentRecordExists (c : String) (k : ContentType) (db : DB) : Prop :=
  match k with
  | ContentType.movie => db.movies.find? (fun m => m.id == c) ≠ none
  | ContentType.tvshow => db.tvshows.find? (fun t => t.id == c) ≠ none

theorem verifyContentExists_iff (c : String) (k : ContentType) (db : DB) :
    verifyContentExists c k db = true ↔ contentRecordExists c k db := by
  cases k
  · simp only [verifyContentExists, contentRecordExists]
    cases db.movies.find? (fun m => m.id == c) <;> simp
  · simp only [verifyContentExists, contentRecordExists]
    cases db.tvshows.find? (fun t => t.id == c) <;> simp

/-- C3. addToMyList error contract: NotFound exactly when the selected
content collection has no record with that id; AlreadyExists exactly
when the record exists but the owner already holds a membership for the
content (the unique (userId, contentId) index rejects the insert), and
then the state, membership rows included, is untouched; otherwise
exactly one new row is inserted and returned. Stated for an initialized
Redis client, since an invalidation throw would otherwise replace the
success result. -/
theorem c3_add_error_contract (s : ServerState) (u c : String) (k : ContentType)
    (now : Nat) (hredis : s.redis ≠ RedisState.uninitialized) :
    ((addToMyList u c k now s).1 = Except.error (ServiceError.contentNotFound k c)
      ↔ ¬contentRecordExists c k s.db)
    ∧ ((addToMyList u c k now s).1 = Except.error ServiceError.alreadyInList
      ↔ (contentRecordExists c k s.db
        ∧ ∃ r ∈ s.db.myList, r.userId = u ∧ r.contentId = c))
    ∧ ((addToMyList u c k now s).1 = Except.error ServiceError.alreadyInList →
        (addToMyList u c k now s).2 = s)
    ∧ ((addToMyList u c k now s).1 = Except.error (ServiceError.contentNotFound k c) →
        (addToMyList u c k now s).2 = s)
    ∧ (contentRecordExists c k s.db →
       (¬∃ r ∈ s.db.myList, r.userId = u ∧ r.contentId = c) →
        (addToMyList u c k now s).1 = Except.ok (⟨u, c, k, now⟩ : MyListRow)
        ∧ (addToMyList u c k now s).2.db.myList
            = s.db.myList ++ [(⟨u, c, k, now⟩ : MyListRow)]) := by
  have hbridge : verifyContentExists c k s.db = false ↔ ¬contentRecordExists c k s.db := by
    rw [← verifyContentExists_iff]
    exact Bool.eq_false_iff.trans (Iff.rfl)
  unfold addToMyList
  by_cases hv : verifyContentExists c k s.db = false
  · rw [if_pos hv]
    refine ⟨Iff.intro (fun _ => hbridge.mp hv) (fun _ => rfl), ?_, ?_, fun _ => rfl, ?_⟩
    · refine iff_of_false (by simp) ?_
      rintro ⟨hex, _⟩
      exact (hbridge.mp hv) hex
    · intro habs
      simp at habs
    · intro hex _
      exact absurd hex (hbridge.mp hv)
  · rw [if_neg hv]
    have hex : contentRecordExists c k s.db := by
      by_contra hnex
      exact hv (hbridge.mpr hnex)
    by_cases hm : hasMembership u c s.db = true
    · rw [if_pos hm]
      refine ⟨?_, ?_, fun _ => rfl, ?_, ?_⟩
      · refine iff_of_false (by simp) ?_
        intro hnex
        exact hnex hex
      · exact iff_of_true rfl ⟨hex, (hasMembership_iff u c s.db).mp hm⟩
      · intro habs
        simp at habs
      · intro _ hnex
        exact absurd ((hasMembership_iff u c s.db).mp hm) hnex
    · rw [if_neg hm]
      obtain ⟨hok, hdb, hlc⟩ := invalidate_ok_of_init
        (u := u)
        (s := { s with db := { s.db with
          myList := s.db.myList ++ [(⟨u, c, k, now⟩ : MyListRow)] } }) hredis
      have heq := afterInvalidate_eq_ok (⟨u, c, k, now⟩ : MyListRow) hok
      rw [heq]
      refine ⟨?_, ?_, ?_, ?_, ?_⟩
      · refine iff_of_false (by simp) ?_
        intro hnex
        exact hnex hex
      · refine iff_of_false (by simp) ?_
        rintro ⟨_, hexm⟩
        exact hm ((hasMembership_iff u c s.db).mpr hexm)
      · intro habs
        simp at habs
      · intro habs
        simp at habs
      · intro _ _
        refine ⟨rfl, ?_⟩
        rw [hdb]

/-- C3 witness: adding content absent from the movie collection fails
with the not-found error. -/
theorem c3_add_error_contract_witness :
    (addToMyList "u1" "m1" ContentType.movie 0
      { db := { myList := [], movies := [], tvshows := [] },
        localCache := [], redis := RedisState.conn true [] }).1
      = Except.error (ServiceError.contentNotFound ContentType.movie "m1") := by
  have h := c3_add_error_contract
    { db := { myList := [], movies := [], tvshows := [] },
      localCache := [], redis := RedisState.conn true [] } "u1" "m1" ContentType.movie 0
    (by simp)
  exact h.1.mpr (by simp [contentRecordExists])

theorem invalidate_db_eq (u : String) (s : ServerState) :
    (invalidateUserListCache u s).2.db = s.db := by
  unfold invalidateUserListCache
  cases hres : s.redis with
  | uninitialized => rfl
  | conn healthy st => cases healthy <;> rfl

theorem length_deleteFirst_of_any {α : Type} {p : α → Bool} :
    ∀ {l : List α}, l.any p = true → (deleteFirst p l).length + 1 = l.length := by
  intro l
  induction l with
  | nil => intro h; simp at h
  | cons x xs ih =>
    intro h
    unfold deleteFirst
    split
    · rfl
    · rename_i hx
      have hxs : xs.any p = true := by
        cases hpx : p x with
        | true => exact absurd hpx hx
        | false =>
          simp only [List.any_cons, hpx, Bool.false_or] at h
          exact h
      have hlen := ih hxs
      simp only [List.length_cons]
      omega

theorem removeFromMyList_db (u c : String) (s : ServerState) :
    (removeFromMyList u c s).2.db.myList
      = deleteFirst (fun r => r.userId == u && r.contentId == c) s.db.myList := by
  unfold removeFromMyList
  split
  · rfl
  · rw [afterInvalidate_snd, invalidate_db_eq]

theorem removeFromMyList_content_frame (u c : String) (s : ServerState) :
    (removeFromMyList u c s).2.db.movies = s.db.movies
    ∧ (removeFromMyList u c s).2.db.tvshows = s.db.tvshows := by
  unfold removeFromMyList
  split
  · exact ⟨rfl, rfl⟩
  · rw [afterInvalidate_snd, invalidate_db_eq]
    exact ⟨rfl, rfl⟩

theorem addToMyList_db (u c : String) (k : ContentType) (now : Nat) (s : ServerState) :
    (addToMyList u c k now s).2.db.myList = s.db.myList
    ∨ (addToMyList u c k now s).2.db.myList
        = s.db.myList ++ [(⟨u, c, k, now⟩ : MyListRow)] := by
  unfold addToMyList
  split
  · exact Or.inl rfl
  · split
    · exact Or.inl rfl
    · right
      rw [afterInvalidate_snd, invalidate_db_eq]

theorem addToMyList_content_frame (u c : String) (k : ContentType) (now : Nat)
    (s : ServerState) :
    (addToMyList u c k now s).2.db.movies = s.db.movies
    ∧ (addToMyList u c k now s).2.db.tvshows = s.db.tvshows := by
  unfold addToMyList
  split
  · exact ⟨rfl, rfl⟩
  · split
    · exact ⟨rfl, rfl⟩
    · rw [afterInvalidate_snd, invalidate_db_eq]
      exact ⟨rfl, rfl⟩

theorem filter_append_single_not {α : Type} {l : List α} {x : α} {q : α → Bool}
    (h : q x = false) : (l ++ [x]).filter q = l.filter q := by
  rw [List.filter_append]
  have hx : [x].filter q = [] := by
    simp [List.filter, h]
  rw [hx, List.append_nil]

/-- C4. removeFromMyList error contract: it fails with NotFound exactly
when no membership row for (owner, contentId) exists, and then the
whole state (rows and caches) is unchanged and invalidation is not
triggered; when the row exists (and the Redis client is initialized so
the invalidation call itself can run), the row is deleted, the result
is success, and the post state is exactly the invalidation of the
mutated state: empty local cache and the owner pattern purged. -/
theorem c4_remove_error_contract (s : ServerState) (u c : String) :
    ((removeFromMyList u c s).1 = Except.error ServiceError.itemNotFoundInList
      ↔ ¬∃ r ∈ s.db.myList, r.userId = u ∧ r.contentId = c)
    ∧ ((removeFromMyList u c s).1 = Except.error ServiceError.itemNotFoundInList →
        (removeFromMyList u c s).2 = s)
    ∧ (s.redis ≠ RedisState.uninitialized →
       (∃ r ∈ s.db.myList, r.userId = u ∧ r.contentId = c) →
        (removeFromMyList u c s).1 = Except.ok true
        ∧ (removeFromMyList u c s).2.db.myList
            = deleteFirst (fun r => r.userId == u && r.contentId == c) s.db.myList
        ∧ (removeFromMyList u c s).2.localCache = []
        ∧ (removeFromMyList u c s).2
            = (invalidateUserListCache u
              { s with db := { s.db with
                myList := deleteFirst (fun r => r.userId == u && r.contentId == c)
                  s.db.myList } }).2) := by
  unfold removeFromMyList
  by_cases hm : hasMembership u c s.db = true
  · have hexm := (hasMembership_iff u c s.db).mp hm
    have hnf : ¬(hasMembership u c s.db = false) := by rw [hm]; simp
    rw [if_neg hnf]
    by_cases hred : s.redis = RedisState.uninitialized
    · have hinv := invalidate_uninit
        (u := u)
        (s := { s with db := { s.db with
          myList := deleteFirst (fun r => r.userId == u && r.contentId == c)
            s.db.myList } })
        hred
      rw [hinv]
      refine ⟨iff_of_false (by simp [afterInvalidate]) (fun hnex => hnex hexm), ?_, ?_⟩
      · intro habs
        simp [afterInvalidate] at habs
      · intro hr _
        exact absurd hred hr
    · obtain ⟨hok, hdb, hlc⟩ := invalidate_ok_of_init
        (u := u)
        (s := { s with db := { s.db with
          myList := deleteFirst (fun r => r.userId == u && r.contentId == c) s.db.myList } })
        hred
      have heq := afterInvalidate_eq_ok true hok
      rw [heq]
      refine ⟨iff_of_false (by simp) (fun hnex => hnex hexm), ?_, ?_⟩
      · intro habs
        simp at habs
      · intro _ _
        refine ⟨rfl, ?_, hlc, rfl⟩
        rw [hdb]
  · have hf : hasMembership u c s.db = false := Bool.eq_false_iff.mpr hm
    rw [if_pos hf]
    have hnex : ¬∃ r ∈ s.db.myList, r.userId = u ∧ r.contentId = c :=
      fun hex => hm ((hasMembership_iff u c s.db).mpr hex)
    have hdel : deleteFirst (fun r => r.userId == u && r.contentId == c) s.db.myList
        = s.db.myList := deleteFirst_id_of_not_any hf
    refine ⟨iff_of_true rfl hnex, ?_, ?_⟩
    · intro _
      show ({ s with db := { s.db with
        myList := deleteFirst (fun r => r.userId == u && r.contentId == c)
          s.db.myList } } : ServerState) = s
      rw [hdel]
    · intro _ hex
      exact absurd hex hnex

/-- C4 witness: removing the one present row succeeds, deletes it and
clears the local cache. -/
theorem c4_remove_error_contract_witness :
    (removeFromMyList "u1" "m1"
      { db := { myList := [⟨"u1", "m1", ContentType.movie, 0⟩], movies := [], tvshows := [] },
        localCache := [], redis := RedisState.conn true [] }).1 = Except.ok true
    ∧ (removeFromMyList "u1" "m1"
      { db := { myList := [⟨"u1", "m1", ContentType.movie, 0⟩], movies := [], tvshows := [] },
        localCache := [], redis := RedisState.conn true [] }).2.localCache = [] := by
  have h := c4_remove_error_contract
    { db := { myList := [⟨"u1", "m1", ContentType.movie, 0⟩], movies := [], tvshows := [] },
      localCache := [], redis := RedisState.conn true [] } "u1" "m1"
  have h3 := h.2.2 (by simp)
    ⟨⟨"u1", "m1", ContentType.movie, 0⟩, List.mem_singleton_self _, rfl, rfl⟩
  exact ⟨h3.1, h3.2.2.1⟩

/-- C10. Mutation frame: whatever the outcome, neither mutation touches
the movie or tvshow collections; the membership rows of every other
(owner, contentId) pair are left unchanged by both operations; a
successful addToMyList appends exactly one row for the pair, and
removeFromMyList removes at most one row (exactly one when the pair is
present, none otherwise). -/
theorem c10_mutation_frame (s : ServerState) (u c : String) (k : ContentType) (now : Nat) :
    (addToMyList u c k now s).2.db.movies = s.db.movies
    ∧ (addToMyList u c k now s).2.db.tvshows = s.db.tvshows
    ∧ (removeFromMyList u c s).2.db.movies = s.db.movies
    ∧ (removeFromMyList u c s).2.db.tvshows = s.db.tvshows
    ∧ (∀ u2 c2 : String, ¬(u2 = u ∧ c2 = c) →
        (addToMyList u c k now s).2.db.myList.filter
            (fun r => r.userId == u2 && r.contentId == c2)
          = s.db.myList.filter (fun r => r.userId == u2 && r.contentId == c2)
        ∧ (removeFromMyList u c s).2.db.myList.filter
            (fun r => r.userId == u2 && r.contentId == c2)
          = s.db.myList.filter (fun r => r.userId == u2 && r.contentId == c2))
    ∧ ((addToMyList u c k now s).1 = Except.ok (⟨u, c, k, now⟩ : MyListRow) →
        (addToMyList u c k now s).2.db.myList
          = s.db.myList ++ [(⟨u, c, k, now⟩ : MyListRow)])
    ∧ ((removeFromMyList u c s).2.db.myList.length + 1 = s.db.myList.length
        ∨ (removeFromMyList u c s).2.db.myList = s.db.myList) := by
  obtain ⟨ham, hat⟩ := addToMyList_content_frame u c k now s
  obtain ⟨hrm, hrt⟩ := removeFromMyList_content_frame u c s
  refine ⟨ham, hat, hrm, hrt, ?_, ?_, ?_⟩
  · intro u2 c2 h
    have hq : ∀ r : MyListRow, (r.userId == u && r.contentId == c) = true →
        (r.userId == u2 && r.contentId == c2) = false := by
      intro r hr
      simp only [Bool.and_eq_true, beq_iff_eq] at hr
      rcases not_and_or.mp h with h1 | h1
      · have hb : (r.userId == u2) = false := by
          simp only [beq_eq_false_iff_ne]
          rw [hr.1]
          exact fun he => h1 he.symm
        rw [hb, Bool.false_and]
      · have hb : (r.contentId == c2) = false := by
          simp only [beq_eq_false_iff_ne]
          rw [hr.2]
          exact fun he => h1 he.symm
        rw [hb, Bool.and_false]
    constructor
    · rcases addToMyList_db u c k now s with hd | hd
      · rw [hd]
      · rw [hd]
        exact filter_append_single_not (hq ⟨u, c, k, now⟩ (by simp))
    · rw [removeFromMyList_db]
      exact filter_deleteFirst_of_disjoint _ _ hq s.db.myList
  · unfold addToMyList
    split
    · intro habs
      simp at habs
    · split
      · intro habs
        simp at habs
      · intro _
        rw [afterInvalidate_snd, invalidate_db_eq]
  · cases hm : hasMembership u c s.db with
    | true =>
      left
      rw [removeFromMyList_db]
      exact length_deleteFirst_of_any hm
    | false =>
      right
      rw [removeFromMyList_db]
      exact deleteFirst_id_of_not_any hm

/-- C10 witness: a concrete remove deletes exactly the one row of the
pair and leaves a different owner with the same content untouched. -/
theorem c10_mutation_frame_witness :
    (removeFromMyList "u1" "m1"
      { db := { myList := [⟨"u1", "m1", ContentType.movie, 0⟩,
                           ⟨"u2", "m1", ContentType.movie, 1⟩],
                movies := [], tvshows := [] },
        localCache := [], redis := RedisState.conn true [] }).2.db.myList.filter
        (fun r => r.userId == "u2" && r.contentId == "m1")
      = [⟨"u2", "m1", ContentType.movie, 1⟩]
    ∧ (removeFromMyList "u1" "m1"
      { db := { myList := [⟨"u1", "m1", ContentType.movie, 0⟩,
                           ⟨"u2", "m1", ContentType.movie, 1⟩],
                movies := [], tvshows := [] },
        localCache := [], redis := RedisState.conn true [] }).2.db.movies = [] := by
  have h := c10_mutation_frame
    { db := { myList := [⟨"u1", "m1", ContentType.movie, 0⟩,
                         ⟨"u2", "m1", ContentType.movie, 1⟩],
              movies := [], tvshows := [] },
      localCache := [], redis := RedisState.conn true [] } "u1" "m1" ContentType.movie 5
  have hp := (h.2.2.2.2.1 "u2" "m1" (by decide)).2
  constructor
  · rw [hp]
    decide
  · exact h.2.2.1

/-- C8. Invalidation idempotence: running invalidateUserListCache twice
in a row leaves exactly the state of running it once, whatever the
starting cache state; and after one run on a healthy connection the
local cache is empty and no shared-cache entry remains for any
versioned (page, pageSize) key of the owner. -/
theorem c8_invalidation_idempotence (u : String) (s : ServerState) :
    (invalidateUserListCache u (invalidateUserListCache u s).2).2
      = (invalidateUserListCache u s).2
    ∧ (∀ st, s.redis = RedisState.conn true st →
        (invalidateUserListCache u s).2.localCache = []
        ∧ ∀ (ver : String) (p ps : Nat) (st2 : RedisStore),
            (invalidateUserListCache u s).2.redis = RedisState.conn true st2 →
            st2.find? (fun kv => kv.1 == versionedKey ver u p ps) = none) := by
  constructor
  · cases hres : s.redis with
    | uninitialized =>
      have h1 := invalidate_uninit (u := u) (s := s) hres
      rw [h1]
      show (invalidateUserListCache u s).2 = s
      rw [h1]
    | conn healthy st =>
      cases healthy with
      | false =>
        unfold invalidateUserListCache
        rw [hres]
        rfl
      | true =>
        unfold invalidateUserListCache
        rw [hres]
        dsimp only
        have hkeys : (((chunks100 ((st.map Prod.fst).filter
            (fun kk => globMatch (redisPattern u).data kk.data))).foldl
              redisDelKeys st).map Prod.fst).filter
            (fun kk => globMatch (redisPattern u).data kk.data) = [] := by
          rw [List.filter_eq_nil_iff]
          intro k hk
          obtain ⟨kv, hkv, hfst⟩ := List.mem_map.mp hk
          have hg := ((mem_invalidated_store u st kv).mp hkv).2
          rw [← hfst, hg]
          simp
        rw [hkeys]
        have hch : chunks100 ([] : List String) = [] := by simp [chunks100]
        rw [hch]
        rfl
  · intro st hres
    constructor
    · unfold invalidateUserListCache
      rw [hres]
      rfl
    · intro ver p ps st2 hst2
      unfold invalidateUserListCache at hst2
      rw [hres] at hst2
      simp only [RedisState.conn.injEq, true_and] at hst2
      rw [List.find?_eq_none]
      intro kv hkv
      rw [← hst2] at hkv
      have hg := ((mem_invalidated_store u st kv).mp hkv).2
      intro hbeq
      have hk : kv.1 = versionedKey ver u p ps := by simpa using hbeq
      rw [hk] at hg
      rw [glob_matches_versionedKey] at hg
      simp at hg

/-- C8 witness: the theorem at a concrete state holding one local entry
and a healthy empty shared store. -/
theorem c8_invalidation_idempotence_witness :
    (invalidateUserListCache "u1" (invalidateUserListCache "u1"
      { db := { myList := [], movies := [], tvshows := [] },
        localCache := [("mylist:v2:u1:1:20", ⟨⟨[], 0, 1, 20, 0⟩, 99⟩)],
        redis := RedisState.conn true [] }).2).2
      = (invalidateUserListCache "u1"
      { db := { myList := [], movies := [], tvshows := [] },
        localCache := [("mylist:v2:u1:1:20", ⟨⟨[], 0, 1, 20, 0⟩, 99⟩)],
        redis := RedisState.conn true [] }).2
    ∧ (invalidateUserListCache "u1"
      { db := { myList := [], movies := [], tvshows := [] },
        localCache := [("mylist:v2:u1:1:20", ⟨⟨[], 0, 1, 20, 0⟩, 99⟩)],
        redis := RedisState.conn true [] }).2.localCache = [] := by
  have h := c8_invalidation_idempotence "u1"
    { db := { myList := [], movies := [], tvshows := [] },
      localCache := [("mylist:v2:u1:1:20", ⟨⟨[], 0, 1, 20, 0⟩, 99⟩)],
      redis := RedisState.conn true [] }
  exact ⟨h.1, (h.2 [] rfl).1⟩

/-- C2 counterexample: the claim includes the uninitialized-client case,
but getRedisClient is called outside the try/catch of getMyListItems,
so with a local-cache miss and an uninitialized Redis client the read
fails with the Redis error even though the durable store is fine. -/
theorem c2_cache_failure_counterexample :
    (getMyListItems "u1" 1 20 0
      { db := { myList := [], movies := [], tvshows := [] },
        localCache := [], redis := RedisState.uninitialized }).1
      = Except.error ServiceError.redisNotInitialized := rfl

theorem getMyListItems_failing (u : String) (p ps now : Nat) {s : ServerState}
    {st : RedisStore} (hred : s.redis = RedisState.conn false st) :
    ((listCacheGet (cacheKey u p ps) now s.localCache).1 = none →
      (getMyListItems u p ps now s).1 = Except.ok (buildResponse s.db u p ps))
    ∧ ∃ r, (getMyListItems u p ps now s).1 = Except.ok r := by
  simp only [getMyListItems]
  cases hget : listCacheGet (cacheKey u p ps) now s.localCache with
  | mk o lc1 =>
    cases o with
    | some d =>
      refine ⟨?_, ⟨d, rfl⟩⟩
      intro habs
      simp at habs
    | none =>
      rw [hred]
      exact ⟨fun _ => rfl, ⟨buildResponse s.db u p ps, rfl⟩⟩

/-- C2 amended: with an initialized Redis client whose every command
fails, getMyListItems still succeeds (from the local cache on a hit,
otherwise with the page computed from the durable store), and neither
mutation can fail because of the cache tier: their only errors are the
domain errors. An uninitialized client, however, fails the read path on
a local miss and the mutations on their success path, because
getRedisClient is invoked outside every try/catch. -/
theorem c2_cache_failure_isolation_amended (s : ServerState) (st : RedisStore)
    (u c : String) (k : ContentType) (p ps now : Nat)
    (hred : s.redis = RedisState.conn false st) :
    (∃ r, (getMyListItems u p ps now s).1 = Except.ok r)
    ∧ ((listCacheGet (cacheKey u p ps) now s.localCache).1 = none →
        (getMyListItems u p ps now s).1 = Except.ok (buildResponse s.db u p ps))
    ∧ (∀ e, (addToMyList u c k now s).1 = Except.error e →
        e = ServiceError.contentNotFound k c ∨ e = ServiceError.alreadyInList)
    ∧ (∀ e, (removeFromMyList u c s).1 = Except.error e →
        e = ServiceError.itemNotFoundInList) := by
  obtain ⟨hmiss, hok⟩ := getMyListItems_failing u p ps now hred
  have hne : s.redis ≠ RedisState.uninitialized := by
    rw [hred]
    simp
  refine ⟨hok, hmiss, ?_, ?_⟩
  · unfold addToMyList
    split
    · intro e habs
      simp only [Except.error.injEq] at habs
      exact Or.inl habs.symm
    · split
      · intro e habs
        simp only [Except.error.injEq] at habs
        exact Or.inr habs.symm
      · intro e habs
        obtain ⟨hokinv, _, _⟩ := invalidate_ok_of_init
          (u := u)
          (s := { s with db := { s.db with
            myList := s.db.myList ++ [(⟨u, c, k, now⟩ : MyListRow)] } }) hne
        rw [afterInvalidate_eq_ok _ hokinv] at habs
        simp at habs
  · unfold removeFromMyList
    split
    · intro e habs
      simp only [Except.error.injEq] at habs
      exact habs.symm
    · intro e habs
      obtain ⟨hokinv, _, _⟩ := invalidate_ok_of_init
        (u := u)
        (s := { s with db := { s.db with
          myList := deleteFirst (fun r => r.userId == u && r.contentId == c)
            s.db.myList } }) hne
      rw [afterInvalidate_eq_ok _ hokinv] at habs
      simp at habs

/-- C2 amended witness: a failing shared cache still lets the read
return the durable-store page. -/
theorem c2_cache_failure_isolation_amended_witness :
    (getMyListItems "u1" 1 20 0
      { db := { myList := [], movies := [], tvshows := [] },
        localCache := [], redis := RedisState.conn false [] }).1
      = Except.ok (buildResponse { myList := [], movies := [], tvshows := [] } "u1" 1 20) := by
  have h := c2_cache_failure_isolation_amended
    { db := { myList := [], movies := [], tvshows := [] },
      localCache := [], redis := RedisState.conn false [] } [] "u1" "m1"
    ContentType.movie 1 20 0 rfl
  exact h.2.1 rfl

/-! ## Behaviour of the eviction guard -/

theorem evict_of_lt {c : LocalCache} (h : c.length < 500) :
    listCacheEvictIfFull c = c := by
  unfold listCacheEvictIfFull
  rw [if_neg (by omega)]

theorem evict_of_head_empty {c : LocalCache} {l : List String}
    (hl : c.map Prod.fst = "" :: l) : listCacheEvictIfFull c = c := by
  cases c with
  | nil => simp at hl
  | cons kv rest =>
    simp only [List.map_cons, List.cons.injEq] at hl
    unfold listCacheEvictIfFull
    split
    · simp only [List.head?_cons]
      rw [if_pos (by simp [hl.1])]
    · rfl

theorem evict_of_full_head_ne {kv : String × LocalEntry} {rest : LocalCache}
    (hlen : 500 ≤ (kv :: rest).length) (hne : kv.1 ≠ "") :
    listCacheEvictIfFull (kv :: rest) = rest := by
  unfold listCacheEvictIfFull
  rw [if_pos hlen]
  simp only [List.head?_cons]
  rw [if_neg (by simp [hne])]
  unfold deleteFirst
  rw [if_pos (by simp)]

theorem length_evict (c : LocalCache) :
    (listCacheEvictIfFull c).length ≤ c.length := by
  unfold listCacheEvictIfFull
  split
  · split
    · split
      · exact Nat.le_refl _
      · exact length_deleteFirst _ c
    · exact Nat.le_refl _
  · exact Nat.le_refl _

/-! ## C9: the falsy-key guard lets the cache exceed its capacity -/

/-- A page value used as payload by the capacity scenarios. -/
def dummyPage : PaginatedResponse :=
  { items := [], total := 0, page := 1, pageSize := 20, totalPages := 0 }

/-- The i-th fresh nonempty key of the overflow scenario: i+1 copies of
the letter k, so all keys are distinct and none is empty. -/
def c9FreshKey (i : Nat) : String := String.mk (List.replicate (i + 1) 'k')

theorem c9FreshKey_ne_empty (i : Nat) : c9FreshKey i ≠ "" := by
  unfold c9FreshKey
  intro h
  have hd := congrArg String.data h
  simp at hd

theorem c9FreshKey_inj {i j : Nat} (h : c9FreshKey i = c9FreshKey j) : i = j := by
  unfold c9FreshKey at h
  have hd := congrArg String.data h
  have hlen := congrArg List.length hd
  simp only [String.data, List.length_replicate] at hlen
  omega

/-- The cache state after setting the empty-string key first and then
500 distinct fresh keys, at time 0 with TTL 60. -/
def c9OverflowState : LocalCache :=
  (List.range 500).foldl
    (fun cache i => listCacheSet (c9FreshKey i) dummyPage 60 0 cache)
    (listCacheSet "" dummyPage 60 0 [])

theorem listCacheSet_keys_head_empty (key : String) (v : PaginatedResponse)
    (ttl now : Nat) (c : LocalCache) (l : List String)
    (hl : c.map Prod.fst = "" :: l) (hfresh : key ∉ c.map Prod.fst) :
    (listCacheSet key v ttl now c).map Prod.fst = c.map Prod.fst ++ [key] := by
  unfold listCacheSet
  rw [evict_of_head_empty hl, mapSet_fresh key _ c hfresh]
  simp

theorem c9_fold_keys : ∀ n : Nat,
    ((List.range n).foldl
      (fun cache i => listCacheSet (c9FreshKey i) dummyPage 60 0 cache)
      (listCacheSet "" dummyPage 60 0 [])).map Prod.fst
    = "" :: (List.range n).map c9FreshKey := by
  intro n
  induction n with
  | zero => rfl
  | succ n ih =>
    rw [List.range_succ, List.foldl_append, List.foldl_cons, List.foldl_nil]
    have hfresh : c9FreshKey n ∉ "" :: (List.range n).map c9FreshKey := by
      simp only [List.mem_cons, List.mem_map, not_or]
      refine ⟨c9FreshKey_ne_empty n, ?_⟩
      rintro ⟨i, hi, he⟩
      have := c9FreshKey_inj he
      rw [this] at hi
      simp at hi
    rw [listCacheSet_keys_head_empty _ _ _ _ _ ((List.range n).map c9FreshKey) ih
      (by rw [ih]; exact hfresh), ih]
    simp

/-- C9 counterexample: the claim promises at most 500 entries for every
operation sequence, but set guards the eviction with if (firstKey):
when the oldest key is the empty string (falsy in JS) the eviction is
skipped, so after setting the empty key and then 500 distinct fresh
keys the cache holds 501 entries. -/
theorem c9_capacity_counterexample : 500 < c9OverflowState.length := by
  have hk := c9_fold_keys 500
  have hlen := congrArg List.length hk
  simp only [List.length_map, List.length_cons, List.length_range] at hlen
  unfold c9OverflowState
  omega

/-! ## C9 amended: capacity under nonempty keys -/

theorem listCacheGet_state_cases (key : String) (now : Nat) (c : LocalCache) :
    (listCacheGet key now c).2 = c
    ∨ (listCacheGet key now c).2 = deleteFirst (fun kv2 => kv2.1 == key) c := by
  unfold listCacheGet
  cases hf : c.find? (fun kv => kv.1 == key) with
  | none => exact Or.inl rfl
  | some kv =>
    dsimp only
    split
    · exact Or.inr rfl
    · exact Or.inl rfl

/-- One client of the ListCache as a component: its four operations. -/
inductive CacheOp where
  | get (key : String) (now : Nat)
  | set (key : String) (data : PaginatedResponse) (ttl now : Nat)
  | del (key : String)
  | clear

/-- Run one ListCache operation, keeping only the cache state. -/
def applyCacheOp (c : LocalCache) : CacheOp → LocalCache
  | CacheOp.get key now => (listCacheGet key now c).2
  | CacheOp.set key data ttl now => listCacheSet key data ttl now c
  | CacheOp.del key => listCacheDelete key c
  | CacheOp.clear => listCacheClear c

/-- The invariant of the amended capacity claim: no stored key is the
empty string and the size is within capacity. -/
def cacheInv (c : LocalCache) : Prop :=
  (∀ k ∈ c.map Prod.fst, k ≠ "") ∧ c.length ≤ 500

theorem cacheInv_get (key : String) (now : Nat) {c : LocalCache} (hc : cacheInv c) :
    cacheInv (listCacheGet key now c).2 := by
  constructor
  · intro k hk
    obtain ⟨kv, hkv, hfst⟩ := List.mem_map.mp hk
    exact hc.1 k (List.mem_map.mpr ⟨kv, listCacheGet_mem_state hkv, hfst⟩)
  · rcases listCacheGet_state_cases key now c with he | he
    · rw [he]; exact hc.2
    · rw [he]
      exact Nat.le_trans (length_deleteFirst _ c) hc.2

theorem cacheInv_set (key : String) (data : PaginatedResponse) (ttl now : Nat)
    {c : LocalCache} (hkey : key ≠ "") (hc : cacheInv c) :
    cacheInv (listCacheSet key data ttl now c) := by
  constructor
  · intro k hk
    obtain ⟨kv, hkv, hfst⟩ := List.mem_map.mp hk
    rcases mem_listCacheSet hkv with he | he
    · rw [he] at hfst
      rw [← hfst]
      exact hkey
    · exact hc.1 k (List.mem_map.mpr ⟨kv, he, hfst⟩)
  · unfold listCacheSet
    by_cases hlen : 500 ≤ c.length
    · cases hcs : c with
      | nil => rw [hcs] at hlen; simp at hlen
      | cons kv rest =>
        have hne : kv.1 ≠ "" := by
          apply hc.1
          rw [hcs]
          simp
        rw [hcs] at hlen
        rw [evict_of_full_head_ne hlen hne]
        have h1 := length_mapSet key
          ({ data := data, expires := now + ttl * 1000 } : LocalEntry) rest
        have h2 : rest.length + 1 ≤ 500 := by
          have := hc.2
          rw [hcs] at this
          simpa using this
        omega
    · rw [evict_of_lt (by omega)]
      have h1 := length_mapSet key
        ({ data := data, expires := now + ttl * 1000 } : LocalEntry) c
      omega

theorem foldl_cacheInv :
    ∀ (ops : List CacheOp) (c : LocalCache),
      (∀ key data ttl now2, CacheOp.set key data ttl now2 ∈ ops → key ≠ "") →
      cacheInv c → cacheInv (ops.foldl applyCacheOp c) := by
  intro ops
  induction ops with
  | nil => intro c _ hc; exact hc
  | cons op rest ih =>
    intro c hops hc
    rw [List.foldl_cons]
    apply ih
    · intro key data ttl now2 hmem
      exact hops key data ttl now2 (List.mem_cons_of_mem _ hmem)
    · cases op with
      | get key now2 => exact cacheInv_get key now2 hc
      | set key data ttl now2 =>
        exact cacheInv_set key data ttl now2
          (hops key data ttl now2 (List.mem_cons_self _ _)) hc
      | del key =>
        refine ⟨?_, ?_⟩
        · intro k hk
          obtain ⟨kv, hkv, hfst⟩ := List.mem_map.mp hk
          exact hc.1 k (List.mem_map.mpr ⟨kv, mem_deleteFirst hkv, hfst⟩)
        · exact Nat.le_trans (length_deleteFirst _ c) hc.2
      | clear => exact ⟨by simp [applyCacheOp, listCacheClear], by simp [applyCacheOp, listCacheClear]⟩

/-- C9 amended: as long as no set ever uses the empty-string key (the
one key that is falsy in JS), any sequence of get, set, delete and
clear operations keeps the cache within its 500-entry capacity; and a
set of a fresh key at capacity with a truthy oldest key evicts exactly
the oldest-inserted entry before appending the new one. With an
empty-string oldest key the eviction is skipped and the capacity is
exceeded, as the counterexample shows. -/
theorem c9_capacity_amended :
    (∀ ops : List CacheOp,
      (∀ key data ttl now2, CacheOp.set key data ttl now2 ∈ ops → key ≠ "") →
      (ops.foldl applyCacheOp []).length ≤ 500)
    ∧ (∀ (kv : String × LocalEntry) (rest : LocalCache) (key : String)
        (data : PaginatedResponse) (ttl now2 : Nat),
        kv.1 ≠ "" → 500 ≤ (kv :: rest).length → key ∉ (kv :: rest).map Prod.fst →
        listCacheSet key data ttl now2 (kv :: rest)
          = rest ++ [(key, ⟨data, now2 + ttl * 1000⟩)]) := by
  constructor
  · intro ops hops
    exact (foldl_cacheInv ops [] hops ⟨by simp, by simp⟩).2
  · intro kv rest key data ttl now2 hne hlen hfresh
    unfold listCacheSet
    rw [evict_of_full_head_ne hlen hne]
    apply mapSet_fresh
    intro hmem
    exact hfresh (by simp only [List.map_cons]; exact List.mem_cons_of_mem _ hmem)

/-- C9 amended witness: a single nonempty-key set stays within
capacity. -/
theorem c9_capacity_amended_witness :
    ([CacheOp.set "k1" dummyPage 60 0].foldl applyCacheOp []).length ≤ 500 := by
  refine c9_capacity_amended.1 [CacheOp.set "k1" dummyPage 60 0] ?_
  intro key data ttl now2 hmem
  simp only [List.mem_singleton, CacheOp.set.injEq] at hmem
  rw [hmem.1]
  decide
